import Mathlib

/-!
Verification of the Huffman codec in `src/huffman.rs`.

Modelling conventions:
* Rust strings (`String`, `&str`) are lists of characters (`Str`); `s.chars()`
  is the list itself.
* `i32` frequencies are `Int` (the counts involved are string lengths, far from
  the `i32` range, so wrap-around is immaterial to the stated properties).
* The `HashMap`s are association lists kept in insertion order: `freq_map`
  records first occurrences in input order, `assign_codes` records `insert`
  calls in traversal order, and `HashMap::get` returns the latest insertion
  for the key.
* `Vec::sort_by(|a, b| b.freq.cmp(&a.freq))` is a stable sort by descending
  frequency; it is modelled by `List.insertionSort` with the corresponding
  relation, which produces exactly the stable descending ordering.
* The `while` loop of `generate_tree` shrinks the vector by one node per
  iteration, so running its body `nodes.length` times (the `fuel` of
  `huffIter`) is the loop run to completion.
* `Option::unwrap` on `None` (a Rust panic) is modelled by returning `none`
  from the enclosing function.
-/

abbrev Str := List Char

/-- The `HNode` struct: frequency, optional character, optional children. -/
inductive HNode where
  | mk (freq : Int) (ch : Option Char) (left : Option HNode) (right : Option HNode)

/-- Field accessor for `HNode.freq`. -/
def HNode.freq : HNode → Int
  | .mk f _ _ _ => f

/-- Field accessor for `HNode.ch`. -/
def HNode.ch : HNode → Option Char
  | .mk _ c _ _ => c

/-- Field accessor for `HNode.left`. -/
def HNode.left : HNode → Option HNode
  | .mk _ _ l _ => l

/-- Field accessor for `HNode.right`. -/
def HNode.right : HNode → Option HNode
  | .mk _ _ _ r => r

/-- The `HuffmanCode` struct: basis string, tree root, code table. -/
structure HuffmanCode where
  data : Str
  root : HNode
  code : List (Char × Str)

/-- `HashMap::get` on the code table: the latest insertion for the key wins. -/
def tableGet (codes : List (Char × Str)) (c : Char) : Option Str :=
  (codes.reverse.find? (fun kv => kv.1 == c)).map (fun kv => kv.2)

/-- One `freq_map.entry(ch).or_insert(0); *count += 1` step of `freq_map`. -/
def bump (m : List (Char × Int)) (c : Char) : List (Char × Int) :=
  match m with
  | [] => [(c, 1)]
  | (k, v) :: rest => if k = c then (k, v + 1) :: rest else (k, v) :: bump rest c

/-- `freq_map(s)`: count the occurrences of each character of `s`. -/
def freq_map (s : Str) : List (Char × Int) :=
  s.foldl bump []

/-- The ordering used by `nodes.sort_by(|a, b| b.freq.cmp(&a.freq))`:
`a` sorts before `b` when `b.freq ≤ a.freq`, i.e. descending frequency. -/
def nodeGE (a b : HNode) : Prop := b.freq ≤ a.freq

instance : DecidableRel nodeGE :=
  fun a b => inferInstanceAs (Decidable (b.freq ≤ a.freq))

instance : IsTotal HNode nodeGE :=
  ⟨fun a b => le_total b.freq a.freq⟩

instance : IsTrans HNode nodeGE :=
  ⟨fun _ _ _ hab hbc => le_trans hbc hab⟩

/-- The sort in the loop of `generate_tree`: a stable sort by descending
frequency (`insertionSort` with `nodeGE` is stable, hence it computes the same
list as Rust's stable `sort_by`). -/
def sortNodes (nodes : List HNode) : List HNode :=
  List.insertionSort nodeGE nodes

/-- The body of the `while nodes.len() > 1` loop of `generate_tree`, iterated
`fuel` times.  Popping the two smallest nodes off the tail of the
descending-sorted vector is modelled by matching on the reversed sorted list:
`a` is the last element (first pop, smallest), `b` the one before it (second
pop); the merged node `c` has `left = a`, `right = b` and is pushed at the
tail. -/
def huffIter : Nat → List HNode → List HNode
  | 0, nodes => nodes
  | fuel + 1, nodes =>
    if 1 < nodes.length then
      match (sortNodes nodes).reverse with
      | a :: b :: rest =>
          huffIter fuel (rest.reverse ++ [HNode.mk (a.freq + b.freq) none (some a) (some b)])
      | _ => nodes
    else nodes

/-- The `while` loop of `generate_tree`, run to completion: each iteration
removes one node, so `nodes.length` iterations always reach the exit
condition. -/
def huffLoop (nodes : List HNode) : List HNode :=
  huffIter nodes.length nodes

/-- The node list `generate_tree` starts from: one leaf per frequency-map
entry, in map order. -/
def initNodes (s : Str) : List HNode :=
  (freq_map s).map (fun kv => HNode.mk kv.2 (some kv.1) none none)

/-- `generate_tree`: build the leaf list from the frequency map, run the merge
loop, and pop the final node (`nodes.pop().unwrap()`; the `unwrap` panic on
empty input is the `none` case). -/
def generate_tree (s : Str) : Option HNode :=
  (huffLoop (initNodes s)).getLast?

/-- `assign_codes`: record the accumulated path at a node that carries a
character, otherwise descend into whichever children are present, appending
`'0'` going left and `'1'` going right. -/
def assign_codes (node : HNode) (code : Str) : List (Char × Str) :=
  match node with
  | .mk _ (some c) _ _ => [(c, code)]
  | .mk _ none l r =>
      (match l with
       | some ln => assign_codes ln (code ++ ['0'])
       | none => []) ++
      (match r with
       | some rn => assign_codes rn (code ++ ['1'])
       | none => [])

/-- `HuffmanCode::new`: generate the tree, assign codes, store everything. -/
def HuffmanCode.new (s : Str) : Option HuffmanCode :=
  match generate_tree s with
  | none => none
  | some root => some { data := s, root := root, code := assign_codes root [] }

/-- The loop of `encode_string`: append each character's codeword; the
`token.unwrap()` panic on a missing key is the `none` case. -/
def encodeLoop (code : List (Char × Str)) : List Char → Str → Option Str
  | [], ret => some ret
  | c :: rest, ret =>
      match tableGet code c with
      | some token => encodeLoop code rest (ret ++ token)
      | none => none

/-- `HuffmanCode::encode_string`. -/
def HuffmanCode.encode_string (hc : HuffmanCode) (s : Str) : Option Str :=
  encodeLoop hc.code s []

/-- The loop of `decode_string`: on `'0'` step to the left child when present,
otherwise to the right child when present; when the new position carries a
character, emit it and reset to the root. -/
def decodeLoop (root : HNode) : List Char → HNode → Str → Str
  | [], _, ret => ret
  | x :: rest, node, ret =>
      let node1 :=
        if x = '0' then
          match node.left with
          | some l => l
          | none => node
        else
          match node.right with
          | some r => r
          | none => node
      match node1.ch with
      | some c => decodeLoop root rest root (ret ++ [c])
      | none => decodeLoop root rest node1 ret

/-- `HuffmanCode::decode_string`. -/
def HuffmanCode.decode_string (hc : HuffmanCode) (s : Str) : Str :=
  decodeLoop hc.root s hc.root []

/-- The characters carried by the leaves of a tree, left to right. -/
def leafChars (node : HNode) : List Char :=
  match node with
  | .mk _ (some c) _ _ => [c]
  | .mk _ none l r =>
      (match l with
       | some ln => leafChars ln
       | none => []) ++
      (match r with
       | some rn => leafChars rn
       | none => [])

/-- The concatenation, in order, of the codewords of the characters of `s`
looked up in the table (meaningful when every character is present). -/
def codewordConcat (code : List (Char × Str)) (s : Str) : Str :=
  (s.map (fun c => (tableGet code c).getD [])).flatten

/-- Shape of the trees produced by `generate_tree`: a node either carries a
character and no children, or carries no character and exactly two children. -/
inductive WFT : HNode → Prop where
  | leaf (f : Int) (c : Char) : WFT (.mk f (some c) none none)
  | node (f : Int) {l r : HNode} : WFT l → WFT r → WFT (.mk f none (some l) (some r))

/-- `Walk t v c`: starting at `t` and consuming exactly the bits of `v`
(`'0'` = left, `'1'` = right) ends on a node carrying character `c`. -/
inductive Walk : HNode → Str → Char → Prop where
  | done (f : Int) (c : Char) : Walk (.mk f (some c) none none) [] c
  | left {l : HNode} {v : Str} {c : Char} (f : Int) (r : HNode) :
      Walk l v c → Walk (.mk f none (some l) (some r)) ('0' :: v) c
  | right {r : HNode} {v : Str} {c : Char} (f : Int) (l : HNode) :
      Walk r v c → Walk (.mk f none (some l) (some r)) ('1' :: v) c

/-- `MidW t v`: starting at `t` and consuming exactly the bits of `v` ends on
a node with two children and no character, i.e. strictly inside the tree. -/
inductive MidW : HNode → Str → Prop where
  | nil (f : Int) {l r : HNode} : MidW (.mk f none (some l) (some r)) []
  | left {l : HNode} {v : Str} (f : Int) (r : HNode) :
      MidW l v → MidW (.mk f none (some l) (some r)) ('0' :: v)
  | right {r : HNode} {v : Str} (f : Int) (l : HNode) :
      MidW r v → MidW (.mk f none (some l) (some r)) ('1' :: v)

/-- Keys of an association list, in order. -/
def keysOf (m : List (Char × Int)) : List Char := m.map Prod.fst

/-- The multiset of leaf characters of a tree. -/
def charMS (t : HNode) : Multiset Char := (leafChars t : Multiset Char)

/-- The multiset of leaf characters of a list of trees. -/
def forestCharMS (L : List HNode) : Multiset Char := (L.map charMS).sum

/-- Sum of the leaf weights of a tree.  A leaf's weight is its `freq` field;
internal `freq` fields are not trusted (they are recomputed). -/
def wsum (t : HNode) : Int :=
  match t with
  | .mk f (some _) _ _ => f
  | .mk _ none l r =>
      (match l with
       | some ln => wsum ln
       | none => 0) +
      (match r with
       | some rn => wsum rn
       | none => 0)

/-- The cost of a tree: the sum, over the edges descended, of the leaf weight
below; equal to the weighted path length (see `wpl_eq_cost`). -/
def cost (t : HNode) : Int :=
  match t with
  | .mk _ (some _) _ _ => 0
  | .mk _ none l r =>
      (match l with
       | some ln => cost ln + wsum ln
       | none => 0) +
      (match r with
       | some rn => cost rn + wsum rn
       | none => 0)

/-- The weighted path length below depth `d`: the sum over leaves of
`weight × depth`. -/
def wpl (t : HNode) (d : Nat) : Int :=
  match t with
  | .mk f (some _) _ _ => f * d
  | .mk _ none l r =>
      (match l with
       | some ln => wpl ln (d + 1)
       | none => 0) +
      (match r with
       | some rn => wpl rn (d + 1)
       | none => 0)

/-- The leaves of a tree as `(symbol, weight)` pairs, left to right. -/
def leafData (t : HNode) : List (Char × Int) :=
  match t with
  | .mk f (some c) _ _ => [(c, f)]
  | .mk _ none l r =>
      (match l with
       | some ln => leafData ln
       | none => []) ++
      (match r with
       | some rn => leafData rn
       | none => [])

/-- The leaf node built from one frequency-map entry. -/
def leafOf (kv : Char × Int) : HNode := HNode.mk kv.2 (some kv.1) none none

/-- The tree builder on a frequency map: the body of `generate_tree` after the
frequency map has been computed. -/
def treeFromMap (fm : List (Char × Int)) : Option HNode :=
  (huffLoop (fm.map leafOf)).getLast?

/-- A shape over blocks: a binary tree whose leaves are whole `HNode` trees.
Any binary prefix-code tree over a set of blocks arises this way, and the
merge loop's intermediate states are exactly forests of blocks. -/
inductive Sh where
  | lf (t : HNode)
  | nd (l r : Sh)

/-- Total weight of a shape. -/
def shW : Sh → Int
  | .lf t => wsum t
  | .nd l r => shW l + shW r

/-- Cost of a shape: block costs plus one weight per edge descended. -/
def shCost : Sh → Int
  | .lf t => cost t
  | .nd l r => shCost l + shCost r + shW l + shW r

/-- The blocks of a shape, left to right. -/
def shBlocks : Sh → List HNode
  | .lf t => [t]
  | .nd l r => shBlocks l ++ shBlocks r

/-- Height of a shape. -/
def shH : Sh → Nat
  | .lf _ => 0
  | .nd l r => max (shH l) (shH r) + 1

/-- The subshape at a path (`false` = left, `true` = right). -/
def shSub : Sh → List Bool → Option Sh
  | s, [] => some s
  | .nd l _, false :: p => shSub l p
  | .nd _ r, true :: p => shSub r p
  | .lf _, _ :: _ => none

/-- Replace the subshape at a path (identity on invalid paths). -/
def shSet : Sh → List Bool → Sh → Sh
  | _, [], v => v
  | .nd l r, false :: p, v => .nd (shSet l p v) r
  | .nd l r, true :: p, v => .nd l (shSet r p v)
  | .lf t, _ :: _, _ => .lf t

/-- The shape of a well-formed tree: leaves become blocks. -/
def shapeOf (t : HNode) : Sh :=
  match t with
  | .mk f (some c) l r => .lf (.mk f (some c) l r)
  | .mk _ none (some l) (some r) => .nd (shapeOf l) (shapeOf r)
  | .mk f none (some l) none => .lf (.mk f none (some l) none)
  | .mk f none none r => .lf (.mk f none none r)

/-! ### Basic lemmas -/

/-- Strong induction for the nested inductive `HNode`. -/
theorem HNode.strongInd {P : HNode → Prop}
    (h : ∀ f c l r, (∀ n, l = some n → P n) → (∀ n, r = some n → P n) →
      P (.mk f c l r)) :
    ∀ n, P n
  | .mk f c l r =>
    h f c l r
      (fun n hn => by
        have : sizeOf n < sizeOf (HNode.mk f c l r) := by
          subst hn; simp; omega
        exact HNode.strongInd h n)
      (fun n hn => by
        have : sizeOf n < sizeOf (HNode.mk f c l r) := by
          subst hn; simp; omega
        exact HNode.strongInd h n)
termination_by n => sizeOf n

theorem sortNodes_perm (nodes : List HNode) : List.Perm (sortNodes nodes) nodes :=
  List.perm_insertionSort nodeGE nodes

theorem sortNodes_length (nodes : List HNode) :
    (sortNodes nodes).length = nodes.length :=
  List.length_insertionSort nodeGE nodes

theorem sortNodes_sorted (nodes : List HNode) :
    (sortNodes nodes).Pairwise nodeGE :=
  List.sorted_insertionSort nodeGE nodes


/-- When the reversed sorted list starts with two elements, the original list
has their count plus the remainder. -/
theorem rev_sort_len {nodes : List HNode} {a b : HNode} {rest : List HNode}
    (h : (sortNodes nodes).reverse = a :: b :: rest) :
    nodes.length = rest.length + 2 := by
  have h2 : (sortNodes nodes).reverse.length = nodes.length := by
    simp [sortNodes_length]
  rw [h] at h2
  simp at h2
  omega

/-- A list with more than one element has a doubly-headed reversed sort. -/
theorem exists_rev_two {nodes : List HNode} (h1 : 1 < nodes.length) :
    ∃ a b rest, (sortNodes nodes).reverse = a :: b :: rest := by
  rcases hrev : (sortNodes nodes).reverse with _ | ⟨a, _ | ⟨b, rest⟩⟩
  · have h2 : (sortNodes nodes).reverse.length = nodes.length := by
      simp [sortNodes_length]
    rw [hrev] at h2
    simp at h2
    omega
  · have h2 : (sortNodes nodes).reverse.length = nodes.length := by
      simp [sortNodes_length]
    rw [hrev] at h2
    simp at h2
    omega
  · exact ⟨a, b, rest, rfl⟩

/-- One unfolding of `huffIter` in the looping case. -/
theorem huffIter_succ_step {fuel : Nat} {nodes : List HNode} {a b : HNode}
    {rest : List HNode} (h1 : 1 < nodes.length)
    (hrev : (sortNodes nodes).reverse = a :: b :: rest) :
    huffIter (fuel + 1) nodes =
      huffIter fuel (rest.reverse ++ [HNode.mk (a.freq + b.freq) none (some a) (some b)]) := by
  simp only [huffIter, if_pos h1, hrev]

/-- A vector that cannot be merged further is returned unchanged. -/
theorem huffLoop_small {nodes : List HNode} (h : ¬ 1 < nodes.length) :
    huffLoop nodes = nodes := by
  unfold huffLoop
  rcases hl : nodes.length with _ | n
  · rfl
  · have hn : n = 0 := by omega
    subst hn
    simp only [huffIter]
    rw [if_neg h]

/-- The loop equation of `generate_tree`: with more than one node, the two
smallest are merged and the loop continues. -/
theorem huffLoop_step {nodes : List HNode} {a b : HNode} {rest : List HNode}
    (h1 : 1 < nodes.length)
    (hrev : (sortNodes nodes).reverse = a :: b :: rest) :
    huffLoop nodes =
      huffLoop (rest.reverse ++ [HNode.mk (a.freq + b.freq) none (some a) (some b)]) := by
  have hlen := rev_sort_len hrev
  have hnext :
      (rest.reverse ++ [HNode.mk (a.freq + b.freq) none (some a) (some b)]).length
        = rest.length + 1 := by simp
  unfold huffLoop
  rw [hlen, hnext]
  exact huffIter_succ_step h1 hrev

/-- The loop always terminates with exactly one node in the vector. -/
theorem huffLoop_length (nodes : List HNode) (h : nodes ≠ []) :
    (huffLoop nodes).length = 1 := by
  by_cases h1 : 1 < nodes.length
  · obtain ⟨a, b, rest, hrev⟩ := exists_rev_two h1
    rw [huffLoop_step h1 hrev]
    exact huffLoop_length
      (rest.reverse ++ [HNode.mk (a.freq + b.freq) none (some a) (some b)]) (by simp)
  · rw [huffLoop_small h1]
    have := List.length_pos.mpr h
    omega
termination_by nodes.length
decreasing_by
  have hlen := rev_sort_len hrev
  simp
  omega

/-- The loop returns a singleton on nonempty input. -/
theorem huffLoop_sing (nodes : List HNode) (h : nodes ≠ []) :
    ∃ t, huffLoop nodes = [t] := by
  have := huffLoop_length nodes h
  rcases hL : huffLoop nodes with _ | ⟨t, _ | _⟩
  · rw [hL] at this; simp at this
  · exact ⟨t, rfl⟩
  · rw [hL] at this; simp at this

/-- A preservation principle for the merge loop: any property of node lists
stable under permutation and under merging the two front nodes holds for the
loop's result. -/
theorem huffLoop_pres (P : List HNode → Prop)
    (hperm : ∀ {L1 L2 : List HNode}, List.Perm L1 L2 → P L1 → P L2)
    (hmerge : ∀ a b rest, P (a :: b :: rest) →
      P (HNode.mk (a.freq + b.freq) none (some a) (some b) :: rest)) :
    ∀ nodes, P nodes → P (huffLoop nodes) := by
  intro nodes hP
  by_cases h1 : 1 < nodes.length
  · obtain ⟨a, b, rest, hrev⟩ := exists_rev_two h1
    rw [huffLoop_step h1 hrev]
    have h2 : List.Perm nodes (a :: b :: rest) :=
      List.Perm.trans (sortNodes_perm nodes).symm
        (hrev ▸ (List.reverse_perm (sortNodes nodes)).symm)
    have h3 : P (HNode.mk (a.freq + b.freq) none (some a) (some b) :: rest) :=
      hmerge a b rest (hperm h2 hP)
    have h4 : List.Perm
        (HNode.mk (a.freq + b.freq) none (some a) (some b) :: rest)
        (rest.reverse ++ [HNode.mk (a.freq + b.freq) none (some a) (some b)]) :=
      List.Perm.trans
        (List.perm_append_singleton _ _).symm
        (List.Perm.append_right _ (List.reverse_perm rest).symm)
    exact huffLoop_pres P hperm hmerge _ (hperm h4 h3)
  · rw [huffLoop_small h1]
    exact hP
termination_by nodes => nodes.length
decreasing_by
  have hlen := rev_sort_len hrev
  simp
  omega


/-! ### Frequency map lemmas -/

theorem bump_ne_nil (m : List (Char × Int)) (c : Char) : bump m c ≠ [] := by
  cases m with
  | nil => simp [bump]
  | cons kv rest =>
    obtain ⟨k, v⟩ := kv
    simp only [bump]
    split <;> simp

theorem foldl_bump_ne_nil (l : List Char) :
    ∀ m : List (Char × Int), m ≠ [] → l.foldl bump m ≠ [] := by
  induction l with
  | nil => intro m hm; exact hm
  | cons c rest ih => intro m _; exact ih _ (bump_ne_nil m c)

theorem freq_map_ne_nil (s : Str) (h : s ≠ []) : freq_map s ≠ [] := by
  cases s with
  | nil => exact absurd rfl h
  | cons c rest => exact foldl_bump_ne_nil rest _ (bump_ne_nil [] c)

theorem keys_bump (m : List (Char × Int)) (c : Char) :
    keysOf (bump m c) =
      if c ∈ keysOf m then keysOf m else keysOf m ++ [c] := by
  induction m with
  | nil => simp [bump, keysOf]
  | cons kv rest ih =>
    obtain ⟨k, v⟩ := kv
    by_cases hk : k = c
    · subst hk
      simp [bump, keysOf]
    · simp only [bump, if_neg hk, keysOf, List.map_cons] at ih ⊢
      rw [ih]
      by_cases hc : c ∈ keysOf rest
      · simp [keysOf] at hc
        simp [hc, Ne.symm hk]
      · simp [keysOf] at hc
        simp [hc, Ne.symm hk]

theorem mem_keys_bump {a : Char} (m : List (Char × Int)) (c : Char) :
    a ∈ keysOf (bump m c) ↔ a ∈ keysOf m ∨ a = c := by
  rw [keys_bump]
  by_cases hc : c ∈ keysOf m
  · rw [if_pos hc]
    constructor
    · exact Or.inl
    · rintro (h | rfl)
      · exact h
      · exact hc
  · rw [if_neg hc]
    simp

theorem nodup_keys_bump (m : List (Char × Int)) (c : Char)
    (h : (keysOf m).Nodup) : (keysOf (bump m c)).Nodup := by
  rw [keys_bump]
  by_cases hc : c ∈ keysOf m
  · rwa [if_pos hc]
  · rw [if_neg hc]
    simp [List.nodup_append, h, hc]

theorem nodup_keys_foldl (l : List Char) :
    ∀ m : List (Char × Int), (keysOf m).Nodup → (keysOf (l.foldl bump m)).Nodup := by
  induction l with
  | nil => intro m hm; exact hm
  | cons c rest ih => intro m hm; exact ih _ (nodup_keys_bump m c hm)

theorem freq_map_keys_nodup (s : Str) : (keysOf (freq_map s)).Nodup :=
  nodup_keys_foldl s [] (by simp [keysOf])

theorem mem_keys_foldl {a : Char} (l : List Char) :
    ∀ m : List (Char × Int), a ∈ keysOf (l.foldl bump m) ↔ a ∈ keysOf m ∨ a ∈ l := by
  induction l with
  | nil => intro m; simp
  | cons c rest ih =>
    intro m
    rw [List.foldl_cons, ih, mem_keys_bump]
    simp only [List.mem_cons]
    tauto

theorem mem_freq_map_keys {a : Char} {s : Str} :
    a ∈ keysOf (freq_map s) ↔ a ∈ s := by
  rw [freq_map, mem_keys_foldl]
  simp [keysOf]

theorem foldl_bump_uniform (c : Char) :
    ∀ (n : Nat) (k : Int),
      (List.replicate n c).foldl bump [(c, k)] = [(c, k + n)] := by
  intro n
  induction n with
  | zero => intro k; simp
  | succ n ih =>
    intro k
    rw [List.replicate_succ, List.foldl_cons]
    have hb : bump [(c, k)] c = [(c, k + 1)] := by simp [bump]
    rw [hb, ih]
    congr 1
    push_cast
    ring_nf

theorem freq_map_uniform (s : Str) (c : Char) (h : s ≠ [])
    (hall : ∀ x ∈ s, x = c) : freq_map s = [(c, (s.length : Int))] := by
  have hs : s = List.replicate s.length c := List.eq_replicate_of_mem hall
  cases s with
  | nil => exact absurd rfl h
  | cons hd tl =>
    have hhd : hd = c := hall hd (by simp)
    subst hhd
    have htl : tl = List.replicate tl.length hd := by
      simpa using congrArg List.tail hs
    rw [freq_map, List.foldl_cons]
    have hb : bump [] hd = [(hd, 1)] := by simp [bump]
    rw [hb]
    conv_lhs => rw [htl]
    rw [foldl_bump_uniform]
    congr 1
    simp
    omega

/-! ### Tree construction invariants -/

theorem generate_tree_nil : generate_tree [] = none := rfl

theorem generate_tree_some (s : Str) (h : s ≠ []) :
    ∃ t, huffLoop (initNodes s) = [t] ∧ generate_tree s = some t := by
  have h1 : initNodes s ≠ [] := by
    simp only [initNodes, ne_eq, List.map_eq_nil_iff]
    exact freq_map_ne_nil s h
  obtain ⟨t, ht⟩ := huffLoop_sing _ h1
  exact ⟨t, ht, by simp [generate_tree, ht]⟩

theorem huffLoop_of_generate {s : Str} {t : HNode}
    (h : generate_tree s = some t) : huffLoop (initNodes s) = [t] := by
  by_cases hs : s = []
  · subst hs
    simp [generate_tree_nil] at h
  · obtain ⟨u, hu, hgen⟩ := generate_tree_some s hs
    rw [h] at hgen
    obtain rfl : t = u := by simpa using hgen
    exact hu

theorem huffLoop_wft (nodes : List HNode) (h : ∀ t ∈ nodes, WFT t) :
    ∀ t ∈ huffLoop nodes, WFT t := by
  refine huffLoop_pres (fun L => ∀ t ∈ L, WFT t) ?_ ?_ nodes h
  · intro L1 L2 hp hP t ht
    exact hP t (hp.mem_iff.mpr ht)
  · intro a b rest hP t ht
    rcases List.mem_cons.mp ht with rfl | hmem
    · exact WFT.node _ (hP a (by simp)) (hP b (by simp))
    · exact hP t (by simp [hmem])

theorem charMS_merge (f : Int) (a b : HNode) :
    charMS (HNode.mk f none (some a) (some b)) = charMS a + charMS b := by
  simp [charMS, leafChars]

theorem huffLoop_charMS (nodes : List HNode) :
    forestCharMS (huffLoop nodes) = forestCharMS nodes := by
  refine huffLoop_pres (fun L => forestCharMS L = forestCharMS nodes) ?_ ?_ nodes rfl
  · intro L1 L2 hp hP
    rw [← hP]
    exact ((hp.map charMS).sum_eq).symm
  · intro a b rest hP
    rw [← hP]
    simp only [forestCharMS, List.map_cons, List.sum_cons, charMS_merge]
    exact add_assoc _ _ _

theorem initNodes_wft (s : Str) : ∀ t ∈ initNodes s, WFT t := by
  intro t ht
  simp only [initNodes, List.mem_map] at ht
  obtain ⟨kv, _, rfl⟩ := ht
  exact WFT.leaf _ _

theorem initNodes_charMS (s : Str) :
    forestCharMS (initNodes s) = (keysOf (freq_map s) : Multiset Char) := by
  simp only [initNodes, forestCharMS, keysOf]
  induction freq_map s with
  | nil => simp
  | cons kv rest ih =>
    simp only [List.map_cons, List.sum_cons, ih]
    have h1 : charMS (HNode.mk kv.2 (some kv.1) none none) = {kv.1} := by
      simp [charMS, leafChars]
    rw [h1]
    rfl

theorem tree_wft {s : Str} {t : HNode} (h : generate_tree s = some t) : WFT t := by
  have := huffLoop_wft (initNodes s) (initNodes_wft s)
  rw [huffLoop_of_generate h] at this
  exact this t (by simp)

theorem tree_charMS {s : Str} {t : HNode} (h : generate_tree s = some t) :
    charMS t = (keysOf (freq_map s) : Multiset Char) := by
  have h1 := huffLoop_charMS (initNodes s)
  rw [huffLoop_of_generate h, initNodes_charMS] at h1
  simpa [forestCharMS] using h1

theorem tree_leafChars_nodup {s : Str} {t : HNode}
    (h : generate_tree s = some t) : (leafChars t).Nodup := by
  have h1 := tree_charMS h
  have h2 : (leafChars t : Multiset Char).Nodup := by
    rw [charMS] at h1
    rw [h1]
    exact Multiset.coe_nodup.mpr (freq_map_keys_nodup s)
  exact Multiset.coe_nodup.mp h2

theorem mem_tree_leafChars {s : Str} {t : HNode} {c : Char}
    (h : generate_tree s = some t) : c ∈ leafChars t ↔ c ∈ s := by
  have h1 := tree_charMS h
  have h2 : c ∈ (leafChars t : Multiset Char) ↔
      c ∈ (keysOf (freq_map s) : Multiset Char) := by
    rw [charMS] at h1
    rw [h1]
  simp only [Multiset.mem_coe] at h2
  rw [h2]
  exact mem_freq_map_keys

/-! ### Decoding with a single-leaf root -/

theorem decode_leafroot (f : Int) (c : Char) :
    ∀ (bits : Str) (acc : Str),
      decodeLoop (HNode.mk f (some c) none none) bits
          (HNode.mk f (some c) none none) acc
        = acc ++ List.replicate bits.length c := by
  intro bits
  induction bits with
  | nil => intro acc; simp [decodeLoop]
  | cons x rest ih =>
    intro acc
    simp only [decodeLoop, HNode.left, HNode.right, HNode.ch]
    have hsame :
        (if x = '0' then
            match (none : Option HNode) with
            | some l => l
            | none => HNode.mk f (some c) none none
          else
            match (none : Option HNode) with
            | some r => r
            | none => HNode.mk f (some c) none none) =
          HNode.mk f (some c) none none := by
      split <;> rfl
    rw [hsame]
    simp only [HNode.ch]
    rw [ih]
    simp [List.replicate_succ]

theorem uniform_root (s : Str) (c : Char) (h : s ≠ [])
    (hall : ∀ x ∈ s, x = c) :
    generate_tree s = some (HNode.mk (s.length : Int) (some c) none none) := by
  have hfm := freq_map_uniform s c h hall
  have hinit : initNodes s = [HNode.mk (s.length : Int) (some c) none none] := by
    simp [initNodes, hfm]
  rw [generate_tree, hinit, huffLoop_small (by simp)]
  rfl

/-- Building a codec succeeds exactly on the trees `generate_tree` yields. -/
theorem new_some {s : Str} {root : HNode} (h : generate_tree s = some root) :
    HuffmanCode.new s = some ⟨s, root, assign_codes root []⟩ := by
  rw [HuffmanCode.new, h]

/-- Claim C10: for a codec built from an input with exactly one distinct
symbol `c`, the tree root is a leaf, and decoding any bit string of length
`n` emits `n` copies of `c`: every consumed bit leaves the walk at the root
leaf (whether `'0'` or `'1'` or anything else) and emits `c`. -/
theorem C10_single_symbol_decode (s : Str) (c : Char) (hne : s ≠ [])
    (hall : ∀ x ∈ s, x = c) (hc : HuffmanCode)
    (hnew : HuffmanCode.new s = some hc) (bits : Str) :
    hc.decode_string bits = List.replicate bits.length c := by
  have hroot := uniform_root s c hne hall
  rw [new_some hroot] at hnew
  obtain rfl : hc = ⟨s, HNode.mk (s.length : Int) (some c) none none,
      assign_codes (HNode.mk (s.length : Int) (some c) none none) []⟩ :=
    (Option.some.inj hnew).symm
  rw [HuffmanCode.decode_string]
  exact decode_leafroot _ _ bits []

/-- Witness for C10 at `s = "aa"`, `bits = "01"`. -/
theorem C10_single_symbol_decode_witness :
    (HuffmanCode.new ['a', 'a']).map
      (fun hc => hc.decode_string ['0', '1']) = some ['a', 'a'] := by
  have h := C10_single_symbol_decode ['a', 'a'] 'a' (by simp)
    (by intro x hx; simpa using hx)
    ⟨['a', 'a'], HNode.mk 2 (some 'a') none none, [('a', [])]⟩ rfl ['0', '1']
  exact congrArg some h

/-! ### Empty input and single-symbol round trip -/

/-- Counterexample to claim C2: constructing from the empty string does not
return a `Codec` at all — `generate_tree` pops from an empty vector and
unwraps `None`, a panic, modelled by `HuffmanCode.new [] = none`. -/
theorem C2_empty_input_counterexample :
    ¬ ∃ hc : HuffmanCode, HuffmanCode.new [] = some hc := by
  rintro ⟨hc, h⟩
  exact Option.noConfusion ((rfl : HuffmanCode.new [] = none) ▸ h)

/-- Claim C2, amended: constructing from the empty string panics
(`nodes.pop().unwrap()` on an empty vector) instead of returning a codec
with an empty table; no encode or decode can be performed. -/
theorem C2_empty_input_panics :
    generate_tree [] = none ∧ HuffmanCode.new [] = none :=
  ⟨rfl, rfl⟩

/-- Counterexample to claim C3: construction from `"aaaa"` does give a
one-entry table, but the single codeword is empty, so the encode of
`"aaaa"` is `""`, whose decode is `""`, not `"aaaa"`: the conjunction
claimed by C3 is false. -/
theorem C3_aaaa_counterexample :
    ¬ ((HuffmanCode.new ['a', 'a', 'a', 'a']).bind
        (fun hc => (hc.encode_string ['a', 'a', 'a', 'a']).map
          (fun e => hc.decode_string e)) = some ['a', 'a', 'a', 'a']) := by
  intro h
  have h0 : (HuffmanCode.new ['a', 'a', 'a', 'a']).bind
      (fun hc => (hc.encode_string ['a', 'a', 'a', 'a']).map
        (fun e => hc.decode_string e)) = some [] := rfl
  rw [h0] at h
  simp at h

/-- Claim C3, amended: construction from `"aaaa"` yields a table with exactly
one entry, but that entry's codeword is the empty bit string, so encoding
`"aaaa"` produces `""` and decoding it back produces `""`, not `"aaaa"`. -/
theorem C3_aaaa_behaviour :
    ∃ hc, HuffmanCode.new ['a', 'a', 'a', 'a'] = some hc ∧
      hc.code = [('a', [])] ∧
      hc.encode_string ['a', 'a', 'a', 'a'] = some [] ∧
      hc.decode_string [] = [] :=
  ⟨⟨['a', 'a', 'a', 'a'], HNode.mk 4 (some 'a') none none, [('a', [])]⟩,
    rfl, rfl, rfl, rfl⟩

/-- Counterexample to claim C1: the round trip fails on the single-distinct-
symbol input `"a"`, whose only codeword is empty; `decode(encode("a")) = ""`.
-/
theorem C1_roundtrip_counterexample :
    ¬ (∀ s : Str, s ≠ [] →
        (HuffmanCode.new s).bind
          (fun hc => (hc.encode_string s).map (fun e => hc.decode_string e))
          = some s) := by
  intro h
  have h1 := h ['a'] (by simp)
  have h0 : (HuffmanCode.new ['a']).bind
      (fun hc => (hc.encode_string ['a']).map (fun e => hc.decode_string e))
      = some [] := rfl
  rw [h0] at h1
  simp at h1

/-! ### Code table lookup -/

theorem findKey_some_iff {l : List (Char × Str)}
    (h : (l.map Prod.fst).Nodup) (c : Char) (w : Str) :
    l.find? (fun kv => kv.1 == c) = some (c, w) ↔ (c, w) ∈ l := by
  induction l with
  | nil => simp
  | cons kv rest ih =>
    rw [List.map_cons, List.nodup_cons] at h
    obtain ⟨hk, hrest⟩ := h
    rw [List.find?_cons]
    by_cases hkc : kv.1 = c
    · rw [show (kv.1 == c) = true from by simp [hkc]]
      constructor
      · intro h2
        obtain rfl : kv = (c, w) := by simpa using h2
        simp
      · intro h2
        rcases List.mem_cons.mp h2 with h3 | h3
        · rw [h3]
        · exfalso
          apply hk
          rw [hkc]
          exact List.mem_map.mpr ⟨(c, w), h3, rfl⟩
    · rw [show (kv.1 == c) = false from by simp [hkc]]
      rw [ih hrest]
      constructor
      · exact List.mem_cons_of_mem kv
      · intro h2
        rcases List.mem_cons.mp h2 with h3 | h3
        · exact absurd (congrArg Prod.fst h3.symm) hkc
        · exact h3

theorem tableGet_some_iff {code : List (Char × Str)}
    (h : (code.map Prod.fst).Nodup) (c : Char) (w : Str) :
    tableGet code c = some w ↔ (c, w) ∈ code := by
  have hrev : (code.reverse.map Prod.fst).Nodup := by
    rw [List.map_reverse, List.nodup_reverse]
    exact h
  have hbridge : tableGet code c = some w ↔
      code.reverse.find? (fun kv => kv.1 == c) = some (c, w) := by
    rw [tableGet]
    constructor
    · intro h2
      rcases hf : code.reverse.find? (fun kv => kv.1 == c) with _ | kv'
      · rw [hf] at h2
        exact Option.noConfusion h2
      · rw [hf] at h2
        have h3 : kv'.2 = w := by simpa using h2
        have h4 : kv'.1 = c := by simpa using List.find?_some hf
        rw [hf, show kv' = (c, w) from Prod.ext h4 h3]
    · intro h2
      rw [h2]
      rfl
  rw [hbridge, findKey_some_iff hrev, List.mem_reverse]

theorem tableGet_none_iff {code : List (Char × Str)} (c : Char) :
    tableGet code c = none ↔ ∀ w, (c, w) ∉ code := by
  rw [tableGet]
  constructor
  · intro h2 w hmem
    have : (c, w) ∈ code.reverse := List.mem_reverse.mpr hmem
    rcases hf : code.reverse.find? (fun kv => kv.1 == c) with _ | kv'
    · rw [List.find?_eq_none] at hf
      exact absurd (by simp : ((c, w).1 == c) = true) (by simpa using hf _ this)
    · rw [hf] at h2
      exact Option.noConfusion h2
  · intro h2
    rcases hf : code.reverse.find? (fun kv => kv.1 == c) with _ | kv'
    · rw [hf]
      rfl
    · exfalso
      have h3 : kv'.1 = c := by simpa using List.find?_some hf
      have h4 : kv' ∈ code := List.mem_reverse.mp (List.mem_of_find?_eq_some hf)
      exact h2 kv'.2 (by rw [← h3]; exact h4)

/-! ### Codeword assignment -/

theorem assign_keys {t : HNode} (hwft : WFT t) :
    ∀ p : Str, (assign_codes t p).map Prod.fst = leafChars t := by
  induction hwft with
  | leaf f c => intro p; simp [assign_codes, leafChars]
  | node f hl hr ihl ihr =>
    intro p
    simp only [assign_codes, leafChars, List.map_append]
    rw [ihl, ihr]

theorem pfx_of_append (p u : Str) : p <+: p ++ u := ⟨u, rfl⟩

theorem pfx_cancel {p x y : Str} (h : p ++ x <+: p ++ y) : x <+: y := by
  obtain ⟨u, hu⟩ := h
  rw [List.append_assoc] at hu
  exact ⟨u, by rwa [List.append_right_inj] at hu⟩

theorem diverge_no_pfx {p x y : Str} {a b : Char} (hab : a ≠ b) :
    ¬ (p ++ a :: x) <+: (p ++ b :: y) := by
  intro h
  obtain ⟨u, hu⟩ := pfx_cancel h
  rw [List.cons_append] at hu
  exact hab (List.head_eq_of_cons_eq hu)

theorem ac_extends {t : HNode} (hwft : WFT t) :
    ∀ (p : Str) (q : Char × Str), q ∈ assign_codes t p → p <+: q.2 := by
  induction hwft with
  | leaf f c =>
    intro p q hq
    obtain rfl : q = (c, p) := by simpa [assign_codes] using hq
    exact ⟨[], List.append_nil p⟩
  | node f hl hr ihl ihr =>
    intro p q hq
    rcases List.mem_append.mp (by simpa [assign_codes] using hq) with hmem | hmem
    · obtain ⟨u, hu⟩ := ihl (p ++ ['0']) q hmem
      exact ⟨'0' :: u, by rw [← hu, List.append_assoc]; rfl⟩
    · obtain ⟨u, hu⟩ := ihr (p ++ ['1']) q hmem
      exact ⟨'1' :: u, by rw [← hu, List.append_assoc]; rfl⟩

theorem ac_pairwise {t : HNode} (hwft : WFT t) :
    ∀ p : Str, (assign_codes t p).Pairwise
      (fun q1 q2 => ¬ q1.2 <+: q2.2 ∧ ¬ q2.2 <+: q1.2) := by
  induction hwft with
  | leaf f c => intro p; simp [assign_codes]
  | node f hl hr ihl ihr =>
    intro p
    simp only [assign_codes]
    rw [List.pairwise_append]
    refine ⟨ihl _, ihr _, ?_⟩
    intro q1 hq1 q2 hq2
    obtain ⟨x, hx⟩ := ac_extends hl (p ++ ['0']) q1 hq1
    obtain ⟨y, hy⟩ := ac_extends hr (p ++ ['1']) q2 hq2
    have hx' : q1.2 = p ++ '0' :: x := by rw [← hx, List.append_assoc]; rfl
    have hy' : q2.2 = p ++ '1' :: y := by rw [← hy, List.append_assoc]; rfl
    rw [hx', hy']
    exact ⟨diverge_no_pfx (by decide), diverge_no_pfx (by decide)⟩

/-- Claim C6: for every constructed code table, the codewords are pairwise
distinct and none is a prefix of a different codeword of the same table. -/
theorem C6_table_no_codeword_extends_another (s : Str) (hc : HuffmanCode)
    (hnew : HuffmanCode.new s = some hc) :
    hc.code.Pairwise
      (fun q1 q2 => q1.2 ≠ q2.2 ∧ ¬ q1.2 <+: q2.2 ∧ ¬ q2.2 <+: q1.2) := by
  rcases hg : generate_tree s with _ | root
  · rw [HuffmanCode.new, hg] at hnew
    exact Option.noConfusion hnew
  · rw [new_some hg] at hnew
    obtain rfl : hc = ⟨s, root, assign_codes root []⟩ := (Option.some.inj hnew).symm
    have hpw := ac_pairwise (tree_wft hg) []
    refine hpw.imp ?_
    intro q1 q2 h12
    refine ⟨?_, h12.1, h12.2⟩
    intro heq
    exact h12.1 (heq ▸ ⟨[], List.append_nil _⟩)

/-- Witness for C6: the table built from `"ab"` satisfies the invariant. -/
theorem C6_table_no_codeword_extends_another_witness :
    ([('b', ['0']), ('a', ['1'])] : List (Char × Str)).Pairwise
      (fun q1 q2 => q1.2 ≠ q2.2 ∧ ¬ q1.2 <+: q2.2 ∧ ¬ q2.2 <+: q1.2) := by
  have h := C6_table_no_codeword_extends_another ['a', 'b']
    ⟨['a', 'b'],
      HNode.mk 2 none (some (HNode.mk 1 (some 'b') none none))
        (some (HNode.mk 1 (some 'a') none none)),
      [('b', ['0']), ('a', ['1'])]⟩ rfl
  exact h

/-! ### Decoding along codeword paths -/

theorem walk_of_mem {t : HNode} (hwft : WFT t) :
    ∀ (p : Str) (c : Char) (w : Str), (c, w) ∈ assign_codes t p →
      ∃ v, w = p ++ v ∧ Walk t v c := by
  induction hwft with
  | leaf f c' =>
    intro p c w hmem
    obtain ⟨rfl, rfl⟩ : c = c' ∧ w = p := by simpa [assign_codes] using hmem
    exact ⟨[], by simp, Walk.done f _⟩
  | node f hl hr ihl ihr =>
    intro p c w hmem
    rcases List.mem_append.mp (by simpa [assign_codes] using hmem) with hm | hm
    · obtain ⟨v, hv, hwalk⟩ := ihl (p ++ ['0']) c w hm
      exact ⟨'0' :: v, by rw [hv, List.append_assoc]; rfl, Walk.left f _ hwalk⟩
    · obtain ⟨v, hv, hwalk⟩ := ihr (p ++ ['1']) c w hm
      exact ⟨'1' :: v, by rw [hv, List.append_assoc]; rfl, Walk.right f _ hwalk⟩

theorem walk_ne_shape {t : HNode} {v : Str} {c : Char}
    (h : Walk t v c) (hv : v ≠ []) :
    ∃ f l r, t = .mk f none (some l) (some r) := by
  cases h with
  | done f c => exact absurd rfl hv
  | left f r h => exact ⟨f, _, r, rfl⟩
  | right f l h => exact ⟨f, l, _, rfl⟩

theorem walk_nil_shape {t : HNode} {c : Char} (h : Walk t [] c) :
    ∃ f, t = .mk f (some c) none none := by
  cases h
  exact ⟨_, rfl⟩

theorem walk_internal_ne_nil {f : Int} {l r : HNode} {v : Str} {c : Char}
    (h : Walk (.mk f none (some l) (some r)) v c) : v ≠ [] := by
  rintro rfl
  cases h

theorem decode_walk {t : HNode} {v : Str} {c : Char}
    (hw : Walk t v c) (hv : v ≠ []) :
    ∀ (root : HNode) (rest : List Char) (ret : Str),
      decodeLoop root (v ++ rest) t ret = decodeLoop root rest root (ret ++ [c]) := by
  induction hw with
  | done f c => exact absurd rfl hv
  | @left l v c f r hwl ih =>
    intro root rest ret
    rw [List.cons_append]
    simp only [decodeLoop, HNode.left, if_pos rfl]
    by_cases hv' : v = []
    · subst hv'
      obtain ⟨f', rfl⟩ := walk_nil_shape hwl
      simp only [HNode.ch]
      rfl
    · obtain ⟨f', l', r', rfl⟩ := walk_ne_shape hwl hv'
      simp only [HNode.ch]
      exact ih hv' root rest ret
  | @right r v c f l hwr ih =>
    intro root rest ret
    rw [List.cons_append]
    simp only [decodeLoop, HNode.right, if_neg (by decide : ¬ ('1' : Char) = '0')]
    by_cases hv' : v = []
    · subst hv'
      obtain ⟨f', rfl⟩ := walk_nil_shape hwr
      simp only [HNode.ch]
      rfl
    · obtain ⟨f', l', r', rfl⟩ := walk_ne_shape hwr hv'
      simp only [HNode.ch]
      exact ih hv' root rest ret

theorem mid_shape {t : HNode} {v : Str} (h : MidW t v) :
    ∃ f l r, t = .mk f none (some l) (some r) := by
  cases h with
  | nil f => exact ⟨f, _, _, rfl⟩
  | left f r h => exact ⟨f, _, r, rfl⟩
  | right f l h => exact ⟨f, l, _, rfl⟩

theorem decode_mid {t : HNode} {v : Str} (hm : MidW t v) :
    ∀ (root : HNode) (ret : Str), decodeLoop root v t ret = ret := by
  induction hm with
  | nil f => intro root ret; rfl
  | @left l v f r hml ih =>
    intro root ret
    simp only [decodeLoop, HNode.left, if_pos rfl]
    obtain ⟨f', l', r', rfl⟩ := mid_shape hml
    simp only [HNode.ch]
    exact ih root ret
  | @right r v f l hmr ih =>
    intro root ret
    simp only [decodeLoop, HNode.right, if_neg (by decide : ¬ ('1' : Char) = '0')]
    obtain ⟨f', l', r', rfl⟩ := mid_shape hmr
    simp only [HNode.ch]
    exact ih root ret

/-! ### Encoding -/

theorem encodeLoop_some (code : List (Char × Str)) :
    ∀ (msg : List Char) (acc : Str),
      (∀ c ∈ msg, (tableGet code c).isSome) →
      encodeLoop code msg acc = some (acc ++ codewordConcat code msg) := by
  intro msg
  induction msg with
  | nil => intro acc _; simp [encodeLoop, codewordConcat]
  | cons c rest ih =>
    intro acc hall
    obtain ⟨w, hw⟩ := Option.isSome_iff_exists.mp (hall c (by simp))
    simp only [encodeLoop, hw]
    rw [ih _ (fun d hd => hall d (by simp [hd]))]
    simp [codewordConcat, hw, List.append_assoc]

theorem encodeLoop_none_iff (code : List (Char × Str)) :
    ∀ (msg : List Char) (acc : Str),
      (encodeLoop code msg acc = none ↔ ∃ c ∈ msg, tableGet code c = none) := by
  intro msg
  induction msg with
  | nil => intro acc; simp [encodeLoop]
  | cons c rest ih =>
    intro acc
    rcases hw : tableGet code c with _ | w
    · simp only [encodeLoop, hw]
      constructor
      · intro _
        exact ⟨c, by simp, hw⟩
      · intro _
        trivial
    · simp only [encodeLoop, hw]
      rw [ih]
      constructor
      · rintro ⟨d, hd, hnone⟩
        exact ⟨d, by simp [hd], hnone⟩
      · rintro ⟨d, hd, hnone⟩
        rcases List.mem_cons.mp hd with rfl | hd'
        · rw [hw] at hnone
          exact Option.noConfusion hnone
        · exact ⟨d, hd', hnone⟩

/-- Claim C4: `encode_string` fails (the `unwrap` panic on the missed lookup,
surfaced to the caller; no encoding is produced) exactly when some character
of `s` is absent from the code table, and otherwise returns the concatenation,
in order, of the codewords of the characters of `s`. -/
theorem C4_encode_spec (hc : HuffmanCode) (s : Str) :
    hc.encode_string s =
      if s.all (fun c => (tableGet hc.code c).isSome)
      then some (codewordConcat hc.code s)
      else none := by
  by_cases hall : ∀ c ∈ s, (tableGet hc.code c).isSome
  · rw [if_pos (List.all_eq_true.mpr (fun c hcs => hall c hcs)),
      HuffmanCode.encode_string, encodeLoop_some _ s [] hall]
    simp
  · rw [if_neg (fun h => hall (fun c hcs => List.all_eq_true.mp h c hcs)),
      HuffmanCode.encode_string]
    rw [encodeLoop_none_iff]
    push_neg at hall
    obtain ⟨c, hcs, hnone⟩ := hall
    exact ⟨c, hcs, Option.not_isSome_iff_eq_none.mp hnone⟩

/-- Witness for C4 at a concrete table: encoding `"ab"` over the `"ab"` table
concatenates the codewords; encoding `"az"` fails on the missing `'z'`. -/
theorem C4_encode_spec_witness :
    (⟨['a', 'b'],
      HNode.mk 2 none (some (HNode.mk 1 (some 'b') none none))
        (some (HNode.mk 1 (some 'a') none none)),
      [('b', ['0']), ('a', ['1'])]⟩ : HuffmanCode).encode_string ['a', 'z'] =
      (if (['a', 'z'] : Str).all
          (fun c => (tableGet [('b', ['0']), ('a', ['1'])] c).isSome)
        then some (codewordConcat [('b', ['0']), ('a', ['1'])] ['a', 'z'])
        else none) :=
  C4_encode_spec _ _

/-! ### The round trip -/

theorem codec_lookup {s : Str} {root : HNode} (hg : generate_tree s = some root)
    {c : Char} (hcs : c ∈ s) :
    ∃ w, tableGet (assign_codes root []) c = some w ∧ Walk root w c := by
  have hwft := tree_wft hg
  have hkeys : (assign_codes root []).map Prod.fst = leafChars root :=
    assign_keys hwft []
  have hnodup : ((assign_codes root []).map Prod.fst).Nodup := by
    rw [hkeys]
    exact tree_leafChars_nodup hg
  have hmemk : c ∈ (assign_codes root []).map Prod.fst := by
    rw [hkeys]
    exact (mem_tree_leafChars hg).mpr hcs
  obtain ⟨⟨c', w⟩, hmem0, hfst⟩ := List.mem_map.mp hmemk
  have hmem : (c, w) ∈ assign_codes root [] := by
    rwa [show c' = c from hfst] at hmem0
  have hget := (tableGet_some_iff hnodup c w).mpr hmem
  obtain ⟨v, hv, hwalk⟩ := walk_of_mem hwft [] c w hmem
  rw [List.nil_append] at hv
  subst hv
  exact ⟨w, hget, hwalk⟩

theorem root_internal_of_two {s : Str} {root : HNode}
    (hg : generate_tree s = some root) (a b : Char) (ha : a ∈ s) (hb : b ∈ s)
    (hab : a ≠ b) : ∃ f l r, root = .mk f none (some l) (some r) := by
  have hwft := tree_wft hg
  cases hwft with
  | leaf f c =>
    exfalso
    have ha' : a ∈ leafChars (HNode.mk f (some c) none none) :=
      (mem_tree_leafChars hg).mpr ha
    have hb' : b ∈ leafChars (HNode.mk f (some c) none none) :=
      (mem_tree_leafChars hg).mpr hb
    simp [leafChars] at ha' hb'
    exact hab (ha'.trans hb'.symm)
  | node f hl hr => exact ⟨_, _, _, rfl⟩

theorem decode_concat {root : HNode} {code : List (Char × Str)}
    (hroot : ∃ f l r, root = .mk f none (some l) (some r)) :
    ∀ msg : List Char,
      (∀ c ∈ msg, ∃ w, tableGet code c = some w ∧ Walk root w c) →
      ∀ (tail : List Char) (acc : Str),
        decodeLoop root (codewordConcat code msg ++ tail) root acc
          = decodeLoop root tail root (acc ++ msg) := by
  intro msg
  induction msg with
  | nil => intro _ tail acc; simp [codewordConcat]
  | cons c rest ih =>
    intro hall tail acc
    obtain ⟨w, hw, hwalk⟩ := hall c (by simp)
    have hwne : w ≠ [] := by
      obtain ⟨f, l, r, rfl⟩ := hroot
      exact walk_internal_ne_nil hwalk
    have hcc : codewordConcat code (c :: rest) = w ++ codewordConcat code rest := by
      simp [codewordConcat, hw]
    rw [hcc, List.append_assoc, decode_walk hwalk hwne,
      ih (fun d hd => hall d (by simp [hd]))]
    simp

/-- Claim C1, amended: the round trip `decode(encode(s)) = s` holds for every
input `s` containing at least two distinct symbols (the single-distinct-symbol
case fails because its codeword is empty, see the counterexample). -/
theorem C1_roundtrip_two_symbols (s : Str) (a b : Char) (ha : a ∈ s)
    (hb : b ∈ s) (hab : a ≠ b) (hc : HuffmanCode)
    (hnew : HuffmanCode.new s = some hc) :
    ∃ e, hc.encode_string s = some e ∧ hc.decode_string e = s := by
  rcases hg : generate_tree s with _ | root
  · rw [HuffmanCode.new, hg] at hnew
    exact Option.noConfusion hnew
  · rw [new_some hg] at hnew
    obtain rfl : hc = ⟨s, root, assign_codes root []⟩ := (Option.some.inj hnew).symm
    have hlookup : ∀ c ∈ s,
        ∃ w, tableGet (assign_codes root []) c = some w ∧ Walk root w c :=
      fun c hcs => codec_lookup hg hcs
    have hall : ∀ c ∈ s, (tableGet (assign_codes root []) c).isSome := by
      intro c hcs
      obtain ⟨w, hw, _⟩ := hlookup c hcs
      simp [hw]
    refine ⟨codewordConcat (assign_codes root []) s, ?_, ?_⟩
    · rw [HuffmanCode.encode_string, encodeLoop_some _ s [] hall]
      simp
    · rw [HuffmanCode.decode_string]
      have hroot := root_internal_of_two hg a b ha hb hab
      have hdc := decode_concat hroot s hlookup [] []
      simpa using hdc

/-- Witness for the amended C1 at `s = "ab"`. -/
theorem C1_roundtrip_two_symbols_witness :
    ∃ e, (⟨['a', 'b'],
        HNode.mk 2 none (some (HNode.mk 1 (some 'b') none none))
          (some (HNode.mk 1 (some 'a') none none)),
        [('b', ['0']), ('a', ['1'])]⟩ : HuffmanCode).encode_string ['a', 'b']
        = some e ∧
      (⟨['a', 'b'],
        HNode.mk 2 none (some (HNode.mk 1 (some 'b') none none))
          (some (HNode.mk 1 (some 'a') none none)),
        [('b', ['0']), ('a', ['1'])]⟩ : HuffmanCode).decode_string e
        = ['a', 'b'] :=
  C1_roundtrip_two_symbols ['a', 'b'] 'a' 'b' (by simp) (by simp) (by decide)
    _ rfl

/-- Counterexample to claim C5: the codec built from `"abc"` assigns
`'a' ↦ "0"`, `'c' ↦ "10"`, `'b' ↦ "11"`; the bit string `"1"` leaves the walk
strictly between the root and a leaf with no bits left, yet `decode_string`
reports nothing: it returns the same plain answer as decoding `""`, silently
dropping the partial symbol (the return type has no error channel at all). -/
theorem C5_no_error_reported_counterexample :
    (HuffmanCode.new ['a', 'b', 'c']).map (fun hc => hc.decode_string ['1'])
        = some [] ∧
      (HuffmanCode.new ['a', 'b', 'c']).map (fun hc => hc.decode_string [])
        = some [] :=
  ⟨rfl, rfl⟩

/-- Claim C5, amended: a bit string that leaves the walk strictly inside the
tree when exhausted is not reported as an error: `decode_string` silently
drops the partial symbol and returns just the symbols decoded before it. -/
theorem C5_trailing_bits_dropped (s : Str) (hc : HuffmanCode)
    (hnew : HuffmanCode.new s = some hc) (msg : Str)
    (hmsg : ∀ c ∈ msg, c ∈ s) (p : Str) (hp : MidW hc.root p) (_hpne : p ≠ []) :
    ∃ e, hc.encode_string msg = some e ∧ hc.decode_string (e ++ p) = msg := by
  rcases hg : generate_tree s with _ | root
  · rw [HuffmanCode.new, hg] at hnew
    exact Option.noConfusion hnew
  · rw [new_some hg] at hnew
    obtain rfl : hc = ⟨s, root, assign_codes root []⟩ := (Option.some.inj hnew).symm
    have hroot : ∃ f l r, root = .mk f none (some l) (some r) := mid_shape hp
    have hlookup : ∀ c ∈ msg,
        ∃ w, tableGet (assign_codes root []) c = some w ∧ Walk root w c :=
      fun c hcs => codec_lookup hg (hmsg c hcs)
    have hall : ∀ c ∈ msg, (tableGet (assign_codes root []) c).isSome := by
      intro c hcs
      obtain ⟨w, hw, _⟩ := hlookup c hcs
      simp [hw]
    refine ⟨codewordConcat (assign_codes root []) msg, ?_, ?_⟩
    · rw [HuffmanCode.encode_string, encodeLoop_some _ msg [] hall]
      simp
    · rw [HuffmanCode.decode_string]
      have hdc := decode_concat hroot msg hlookup p []
      rw [hdc]
      exact decode_mid hp root msg

/-- Witness for the amended C5: over the `"abc"` codec, `"ca"` encodes to
`"100"`, and decoding `"100" ++ "1"` still returns `"ca"` with no error. -/
theorem C5_trailing_bits_dropped_witness :
    ∃ e, (⟨['a', 'b', 'c'],
        HNode.mk 3 none (some (HNode.mk 1 (some 'a') none none))
          (some (HNode.mk 2 none (some (HNode.mk 1 (some 'c') none none))
            (some (HNode.mk 1 (some 'b') none none)))),
        [('a', ['0']), ('c', ['1', '0']), ('b', ['1', '1'])]⟩
          : HuffmanCode).encode_string ['c', 'a'] = some e ∧
      (⟨['a', 'b', 'c'],
        HNode.mk 3 none (some (HNode.mk 1 (some 'a') none none))
          (some (HNode.mk 2 none (some (HNode.mk 1 (some 'c') none none))
            (some (HNode.mk 1 (some 'b') none none)))),
        [('a', ['0']), ('c', ['1', '0']), ('b', ['1', '1'])]⟩
          : HuffmanCode).decode_string (e ++ ['1']) = ['c', 'a'] :=
  C5_trailing_bits_dropped ['a', 'b', 'c'] _ rfl ['c', 'a']
    (by decide) ['1']
    (MidW.right 3 (HNode.mk 1 (some 'a') none none) (MidW.nil 2)) (by simp)

/-! ### The merge step (claim C8) -/

/-- Claim C8: while more than one candidate node remains, the loop removes the
two nodes of smallest weight (`a` the smallest, `b` the smallest among the
rest) and replaces them by one new internal node whose weight is `a.freq +
b.freq` and whose left and right children are exactly `a` and `b`; this
repeats until a single node remains, which `generate_tree` returns as the
root. -/
theorem C8_merge_step :
    (∀ nodes : List HNode, 1 < nodes.length →
      ∃ a b rest, (sortNodes nodes).reverse = a :: b :: rest ∧
        List.Perm nodes (a :: b :: rest) ∧
        (∀ x ∈ nodes, a.freq ≤ x.freq) ∧
        a.freq ≤ b.freq ∧
        (∀ x ∈ rest, b.freq ≤ x.freq) ∧
        huffLoop nodes =
          huffLoop (rest.reverse ++
            [HNode.mk (a.freq + b.freq) none (some a) (some b)])) ∧
    (∀ s : Str, s ≠ [] →
      ∃ t, huffLoop (initNodes s) = [t] ∧ generate_tree s = some t) := by
  constructor
  · intro nodes h1
    obtain ⟨a, b, rest, hrev⟩ := exists_rev_two h1
    have hperm : List.Perm nodes (a :: b :: rest) :=
      List.Perm.trans (sortNodes_perm nodes).symm
        (hrev ▸ (List.reverse_perm (sortNodes nodes)).symm)
    have hpw : (a :: b :: rest).Pairwise (fun x y => x.freq ≤ y.freq) := by
      have hs := sortNodes_sorted nodes
      have hrevpw : ((sortNodes nodes).reverse).Pairwise
          (fun x y => nodeGE y x) := List.pairwise_reverse.mpr hs
      rw [hrev] at hrevpw
      exact hrevpw.imp (fun h => h)
    have hab : a.freq ≤ b.freq := (List.pairwise_cons.mp hpw).1 b (by simp)
    have hamin : ∀ x ∈ nodes, a.freq ≤ x.freq := by
      intro x hx
      have hx' : x ∈ a :: b :: rest := hperm.mem_iff.mp hx
      rcases List.mem_cons.mp hx' with rfl | hx''
      · exact le_refl _
      · exact (List.pairwise_cons.mp hpw).1 x hx''
    have hbmin : ∀ x ∈ rest, b.freq ≤ x.freq := by
      intro x hx
      exact (List.pairwise_cons.mp (List.pairwise_cons.mp hpw).2).1 x hx
    exact ⟨a, b, rest, hrev, hperm, hamin, hab, hbmin, huffLoop_step h1 hrev⟩
  · exact generate_tree_some

/-- Witness for C8 on the two-node list built from `"ab"` and on the string
`"ab"` itself. -/
theorem C8_merge_step_witness :
    (∃ a b rest,
      (sortNodes [HNode.mk 1 (some 'a') none none,
        HNode.mk 1 (some 'b') none none]).reverse = a :: b :: rest ∧
      List.Perm [HNode.mk 1 (some 'a') none none,
        HNode.mk 1 (some 'b') none none] (a :: b :: rest) ∧
      (∀ x ∈ [HNode.mk 1 (some 'a') none none,
        HNode.mk 1 (some 'b') none none], a.freq ≤ x.freq) ∧
      a.freq ≤ b.freq ∧
      (∀ x ∈ rest, b.freq ≤ x.freq) ∧
      huffLoop [HNode.mk 1 (some 'a') none none,
        HNode.mk 1 (some 'b') none none] =
        huffLoop (rest.reverse ++
          [HNode.mk (a.freq + b.freq) none (some a) (some b)])) ∧
    (∃ t, huffLoop (initNodes ['a', 'b']) = [t] ∧
      generate_tree ['a', 'b'] = some t) :=
  ⟨C8_merge_step.1 [HNode.mk 1 (some 'a') none none,
      HNode.mk 1 (some 'b') none none] (by simp),
    C8_merge_step.2 ['a', 'b'] (by simp)⟩

/-! ### Shape surgery -/

theorem shBlocks_ne_nil (s : Sh) : shBlocks s ≠ [] := by
  induction s with
  | lf t => simp [shBlocks]
  | nd l r ihl ihr =>
    simp only [shBlocks, ne_eq, List.append_eq_nil]
    rintro ⟨h, _⟩
    exact ihl h

theorem shSub_append (s : Sh) (p q : List Bool) :
    shSub s (p ++ q) = (shSub s p).bind (fun u => shSub u q) := by
  induction p generalizing s with
  | nil => simp [shSub]
  | cons b p ih =>
    cases s with
    | lf t => cases b <;> simp [shSub]
    | nd l r => cases b <;> simp [shSub, ih]

theorem shSet_self {s : Sh} {p : List Bool} {u : Sh}
    (h : shSub s p = some u) (v : Sh) : shSub (shSet s p v) p = some v := by
  induction p generalizing s with
  | nil => simp [shSub, shSet]
  | cons b p ih =>
    cases s with
    | lf t => cases b <;> simp [shSub] at h
    | nd l r =>
      cases b
      · simp only [shSub, shSet] at h ⊢
        exact ih h
      · simp only [shSub, shSet] at h ⊢
        exact ih h

theorem shSet_other {s : Sh} {p q : List Bool} {x y : HNode} :
    ∀ {v : Sh}, shSub s p = some (.lf x) → shSub s q = some (.lf y) → p ≠ q →
      shSub (shSet s p v) q = some (.lf y) := by
  induction p generalizing s q with
  | nil =>
    intro v hp hq hpq
    obtain rfl : s = Sh.lf x := by simpa [shSub] using hp
    cases q with
    | nil => exact absurd rfl hpq
    | cons b q' => cases b <;> simp [shSub] at hq
  | cons b p' ih =>
    intro v hp hq hpq
    cases s with
    | lf t => cases b <;> simp [shSub] at hp
    | nd l r =>
      cases q with
      | nil => exact absurd (Option.some.inj hq) (by intro h; cases h)
      | cons c q' =>
        cases b <;> cases c
        · simp only [shSub, shSet] at hp hq ⊢
          exact ih hp hq (fun h => hpq (by rw [h]))
        · simp only [shSub, shSet] at hp hq ⊢
          exact hq
        · simp only [shSub, shSet] at hp hq ⊢
          exact hq
        · simp only [shSub, shSet] at hp hq ⊢
          exact ih hp hq (fun h => hpq (by rw [h]))

theorem coe_append_ms {α : Type} (l₁ l₂ : List α) :
    ((l₁ ++ l₂ : List α) : Multiset α) = (l₁ : Multiset α) + l₂ :=
  (Multiset.coe_add l₁ l₂).symm

theorem shBlocks_set {s : Sh} {p : List Bool} {u : Sh} (h : shSub s p = some u) :
    ∃ M : Multiset HNode,
      (shBlocks s : Multiset HNode) = (shBlocks u : Multiset HNode) + M ∧
      ∀ v : Sh, (shBlocks (shSet s p v) : Multiset HNode)
        = (shBlocks v : Multiset HNode) + M := by
  induction p generalizing s with
  | nil =>
    obtain rfl : s = u := by simpa [shSub] using h
    exact ⟨0, by simp, fun v => by simp [shSet]⟩
  | cons b p ih =>
    cases s with
    | lf t => cases b <;> simp [shSub] at h
    | nd l r =>
      cases b
      · simp only [shSub] at h
        obtain ⟨M, hM1, hM2⟩ := ih h
        refine ⟨M + (shBlocks r : Multiset HNode), ?_, ?_⟩
        · show ((shBlocks l ++ shBlocks r : List HNode) : Multiset HNode) = _
          rw [coe_append_ms, hM1, add_assoc]
        · intro v
          show ((shBlocks (shSet l p v) ++ shBlocks r : List HNode) : Multiset HNode) = _
          rw [coe_append_ms, hM2 v, add_assoc]
      · simp only [shSub] at h
        obtain ⟨M, hM1, hM2⟩ := ih h
        refine ⟨M + (shBlocks l : Multiset HNode), ?_, ?_⟩
        · show ((shBlocks l ++ shBlocks r : List HNode) : Multiset HNode) = _
          rw [coe_append_ms, hM1]
          have : ∀ A B C : Multiset HNode, A + (B + C) = B + (C + A) := by
            intro A B C
            rw [add_comm A, add_assoc]
          exact this _ _ _
        · intro v
          show ((shBlocks l ++ shBlocks (shSet r p v) : List HNode) : Multiset HNode) = _
          rw [coe_append_ms, hM2 v]
          have : ∀ A B C : Multiset HNode, A + (B + C) = B + (C + A) := by
            intro A B C
            rw [add_comm A, add_assoc]
          exact this _ _ _

theorem shW_set {s : Sh} {p : List Bool} {u : Sh} (h : shSub s p = some u)
    (v : Sh) : shW (shSet s p v) + shW u = shW s + shW v := by
  induction p generalizing s with
  | nil =>
    obtain rfl : s = u := by simpa [shSub] using h
    simp [shSet]
    ring
  | cons b p ih =>
    cases s with
    | lf t => cases b <;> simp [shSub] at h
    | nd l r =>
      cases b
      · simp only [shSub] at h
        simp only [shSet, shW]
        have := ih h
        linarith
      · simp only [shSub] at h
        simp only [shSet, shW]
        have := ih h
        linarith

theorem shCost_set {s : Sh} {p : List Bool} {u : Sh} (h : shSub s p = some u)
    (v : Sh) :
    shCost (shSet s p v) + shCost u + (p.length : Int) * shW u
      = shCost s + shCost v + (p.length : Int) * shW v := by
  induction p generalizing s with
  | nil =>
    obtain rfl : s = u := by simpa [shSub] using h
    simp [shSet]
    ring
  | cons b p ih =>
    cases s with
    | lf t => cases b <;> simp [shSub] at h
    | nd l r =>
      cases b
      · simp only [shSub] at h
        simp only [shSet, shCost, List.length_cons]
        have h1 := ih h
        have h2 := shW_set h v
        push_cast
        nlinarith [h1, h2]
      · simp only [shSub] at h
        simp only [shSet, shCost, List.length_cons]
        have h1 := ih h
        have h2 := shW_set h v
        push_cast
        nlinarith [h1, h2]

theorem shH_set_leaf {s : Sh} {p : List Bool} {x y : HNode}
    (h : shSub s p = some (.lf x)) : shH (shSet s p (.lf y)) = shH s := by
  induction p generalizing s with
  | nil =>
    obtain rfl : s = Sh.lf x := by simpa [shSub] using h
    simp [shSet, shH]
  | cons b p ih =>
    cases s with
    | lf t => cases b <;> simp [shSub] at h
    | nd l r =>
      cases b
      · simp only [shSub] at h
        simp only [shSet, shH, ih h]
      · simp only [shSub] at h
        simp only [shSet, shH, ih h]

theorem exists_block_path {s : Sh} {x : HNode} (h : x ∈ shBlocks s) :
    ∃ p, shSub s p = some (.lf x) := by
  induction s with
  | lf t =>
    obtain rfl : x = t := by simpa [shBlocks] using h
    exact ⟨[], rfl⟩
  | nd l r ihl ihr =>
    rcases List.mem_append.mp (by simpa [shBlocks] using h) with hm | hm
    · obtain ⟨p, hp⟩ := ihl hm
      exact ⟨false :: p, hp⟩
    · obtain ⟨p, hp⟩ := ihr hm
      exact ⟨true :: p, hp⟩

theorem path_len_le_height {s : Sh} {p : List Bool} {x : HNode}
    (h : shSub s p = some (.lf x)) : p.length ≤ shH s := by
  induction p generalizing s with
  | nil => simp
  | cons b p ih =>
    cases s with
    | lf t => cases b <;> simp [shSub] at h
    | nd l r =>
      cases b
      · simp only [shSub] at h
        have := ih h
        simp only [shH, List.length_cons]
        omega
      · simp only [shSub] at h
        have := ih h
        simp only [shH, List.length_cons]
        omega

theorem exists_deepest_pair {s : Sh} (h : 1 ≤ shH s) :
    ∃ (p : List Bool) (a b : HNode),
      shSub s p = some (.nd (.lf a) (.lf b)) ∧ p.length + 1 = shH s := by
  induction s with
  | lf t => simp [shH] at h
  | nd l r ihl ihr =>
    by_cases hl0 : shH l = 0
    · by_cases hr0 : shH r = 0
      · obtain ⟨a, rfl⟩ : ∃ a, l = Sh.lf a := by
          cases l with
          | lf a => exact ⟨a, rfl⟩
          | nd u v => simp [shH] at hl0
        obtain ⟨b, rfl⟩ : ∃ b, r = Sh.lf b := by
          cases r with
          | lf b => exact ⟨b, rfl⟩
          | nd u v => simp [shH] at hr0
        exact ⟨[], a, b, rfl, by simp [shH]⟩
      · obtain ⟨p, a, b, hp, hlen⟩ := ihr (by omega)
        refine ⟨true :: p, a, b, hp, ?_⟩
        simp only [shH, List.length_cons]
        omega
    · by_cases hge : shH r ≤ shH l
      · obtain ⟨p, a, b, hp, hlen⟩ := ihl (by omega)
        refine ⟨false :: p, a, b, hp, ?_⟩
        simp only [shH, List.length_cons]
        omega
      · obtain ⟨p, a, b, hp, hlen⟩ := ihr (by omega)
        refine ⟨true :: p, a, b, hp, ?_⟩
        simp only [shH, List.length_cons]
        omega

theorem single_block {s : Sh} {p : List Bool} {x : HNode}
    (h : shSub s p = some (.lf x)) :
    ∃ M, (shBlocks s : Multiset HNode) = x ::ₘ M := by
  obtain ⟨M, hM, _⟩ := shBlocks_set h
  refine ⟨M, ?_⟩
  rw [hM]
  show ((([x] : List HNode)) : Multiset HNode) + M = x ::ₘ M
  rw [Multiset.coe_singleton, Multiset.singleton_add]

theorem pair_blocks {s : Sh} :
    ∀ {p q : List Bool} {x y : HNode},
      shSub s p = some (.lf x) → shSub s q = some (.lf y) → p ≠ q →
      ∃ M, (shBlocks s : Multiset HNode) = x ::ₘ y ::ₘ M := by
  induction s with
  | lf t =>
    intro p q x y hp hq hpq
    obtain rfl : p = [] := by
      cases p with
      | nil => rfl
      | cons b p' => cases b <;> simp [shSub] at hp
    obtain rfl : q = [] := by
      cases q with
      | nil => rfl
      | cons b q' => cases b <;> simp [shSub] at hq
    exact absurd rfl hpq
  | nd l r ihl ihr =>
    intro p q x y hp hq hpq
    have hsplit : (shBlocks (Sh.nd l r) : Multiset HNode)
        = (shBlocks l : Multiset HNode) + (shBlocks r : Multiset HNode) :=
      coe_append_ms _ _
    rcases p with _ | ⟨b, p'⟩
    · simp [shSub] at hp
    rcases q with _ | ⟨c, q'⟩
    · simp [shSub] at hq
    cases b <;> cases c
    · simp only [shSub] at hp hq
      obtain ⟨M, hM⟩ := ihl hp hq (fun h => hpq (by rw [h]))
      refine ⟨M + (shBlocks r : Multiset HNode), ?_⟩
      rw [hsplit, hM, Multiset.cons_add, Multiset.cons_add]
    · simp only [shSub] at hp hq
      obtain ⟨Ml, hMl⟩ := single_block hp
      obtain ⟨Mr, hMr⟩ := single_block hq
      refine ⟨Ml + Mr, ?_⟩
      rw [hsplit, hMl, hMr, Multiset.cons_add, Multiset.add_cons]
    · simp only [shSub] at hp hq
      obtain ⟨Ml, hMl⟩ := single_block hq
      obtain ⟨Mr, hMr⟩ := single_block hp
      refine ⟨Ml + Mr, ?_⟩
      rw [hsplit, hMl, hMr, Multiset.cons_add, Multiset.add_cons, Multiset.cons_swap]
    · simp only [shSub] at hp hq
      obtain ⟨M, hM⟩ := ihr hp hq (fun h => hpq (by rw [h]))
      refine ⟨(shBlocks l : Multiset HNode) + M, ?_⟩
      rw [hsplit, hM, Multiset.add_cons, Multiset.add_cons]

theorem exists_two_paths {s : Sh} :
    ∀ {t1 t2 : HNode} {G : Multiset HNode},
      (shBlocks s : Multiset HNode) = t1 ::ₘ t2 ::ₘ G →
      ∃ p q, p ≠ q ∧ shSub s p = some (.lf t1) ∧ shSub s q = some (.lf t2) := by
  induction s with
  | lf t =>
    intro t1 t2 G hbl
    exfalso
    have hcard := congrArg Multiset.card hbl
    simp [shBlocks] at hcard
  | nd l r ihl ihr =>
    intro t1 t2 G hbl
    have hsplit : (shBlocks l : Multiset HNode) + (shBlocks r : Multiset HNode)
        = t1 ::ₘ t2 ::ₘ G := by
      rw [← coe_append_ms]
      exact hbl
    by_cases h1l : t1 ∈ (shBlocks l : Multiset HNode)
    · obtain ⟨Ml, hMl⟩ := Multiset.exists_cons_of_mem h1l
      have hrest : Ml + (shBlocks r : Multiset HNode) = t2 ::ₘ G := by
        rw [hMl, Multiset.cons_add] at hsplit
        exact (Multiset.cons_inj_right t1).mp hsplit
      by_cases h2l : t2 ∈ Ml
      · obtain ⟨Ml', hMl'⟩ := Multiset.exists_cons_of_mem h2l
        obtain ⟨p, q, hpq, hp, hq⟩ := ihl (by rw [hMl, hMl'])
        exact ⟨false :: p, false :: q, fun h => hpq (by injection h),
          hp, hq⟩
      · have h2r : t2 ∈ (shBlocks r : Multiset HNode) := by
          have : t2 ∈ Ml + (shBlocks r : Multiset HNode) := by
            rw [hrest]; exact Multiset.mem_cons_self _ _
          exact (Multiset.mem_add.mp this).resolve_left h2l
        obtain ⟨p, hp⟩ := exists_block_path (Multiset.mem_coe.mp h1l)
        obtain ⟨q, hq⟩ := exists_block_path (Multiset.mem_coe.mp h2r)
        exact ⟨false :: p, true :: q, by simp, hp, hq⟩
    · have h1r : t1 ∈ (shBlocks r : Multiset HNode) := by
        have : t1 ∈ (shBlocks l : Multiset HNode) + (shBlocks r : Multiset HNode) := by
          rw [hsplit]; exact Multiset.mem_cons_self _ _
        exact (Multiset.mem_add.mp this).resolve_left h1l
      obtain ⟨Mr, hMr⟩ := Multiset.exists_cons_of_mem h1r
      have hrest : (shBlocks l : Multiset HNode) + Mr = t2 ::ₘ G := by
        rw [hMr, Multiset.add_cons] at hsplit
        exact (Multiset.cons_inj_right t1).mp hsplit
      by_cases h2l : t2 ∈ (shBlocks l : Multiset HNode)
      · obtain ⟨p, hp⟩ := exists_block_path (Multiset.mem_coe.mp h1r)
        obtain ⟨q, hq⟩ := exists_block_path (Multiset.mem_coe.mp h2l)
        exact ⟨true :: p, false :: q, by simp, hp, hq⟩
      · have h2r : t2 ∈ Mr := by
          have : t2 ∈ (shBlocks l : Multiset HNode) + Mr := by
            rw [hrest]; exact Multiset.mem_cons_self _ _
          exact (Multiset.mem_add.mp this).resolve_left h2l
        obtain ⟨Mr', hMr'⟩ := Multiset.exists_cons_of_mem h2r
        obtain ⟨p, q, hpq, hp, hq⟩ := ihr (by rw [hMr, hMr'])
        exact ⟨true :: p, true :: q, fun h => hpq (by injection h), hp, hq⟩

theorem sh_swap_aux (s : Sh) (p q : List Bool) (x y : HNode)
    (hp : shSub s p = some (.lf x)) (hq : shSub s q = some (.lf y)) :
    ∃ s2 : Sh,
      shSub s2 p = some (.lf y) ∧
      shSub s2 q = some (.lf x) ∧
      (∀ r z, shSub s r = some (.lf z) → r ≠ p → r ≠ q →
        shSub s2 r = some (.lf z)) ∧
      (shBlocks s2 : Multiset HNode) = (shBlocks s : Multiset HNode) ∧
      shCost s2 + (p.length : Int) * wsum x + (q.length : Int) * wsum y
        = shCost s + (p.length : Int) * wsum y + (q.length : Int) * wsum x ∧
      shH s2 = shH s := by
  by_cases hpq : p = q
  · subst hpq
    obtain rfl : x = y := by
      rw [hp] at hq
      cases Option.some.inj hq
      rfl
    exact ⟨s, hp, hp, fun r z h _ _ => h, rfl, by ring, rfl⟩
  · refine ⟨shSet (shSet s p (.lf y)) q (.lf x), ?_, ?_, ?_, ?_, ?_, ?_⟩
    · -- p keeps the new label y after the second set at q ≠ p
      exact shSet_other (shSet_other hp hq hpq) (shSet_self hp _)
        (fun h => hpq h.symm)
    · exact shSet_self (shSet_other hp hq hpq) _
    · intro r z hr hrp hrq
      exact shSet_other (shSet_other hp hq hpq)
        (shSet_other hp hr (fun h => hrp h.symm)) (fun h => hrq h.symm)
    · obtain ⟨M1, hM1a, hM1b⟩ := shBlocks_set hp
      have hq1 : shSub (shSet s p (.lf y)) q = some (.lf y) :=
        shSet_other hp hq hpq
      obtain ⟨M2, hM2a, hM2b⟩ := shBlocks_set hq1
      have hMeq : M1 = M2 := by
        have e1 : (shBlocks (shSet s p (.lf y)) : Multiset HNode)
            = y ::ₘ M1 := by
          rw [hM1b]
          show ((([y] : List HNode)) : Multiset HNode) + M1 = _
          rw [Multiset.coe_singleton, Multiset.singleton_add]
        have e2 : (shBlocks (shSet s p (.lf y)) : Multiset HNode)
            = y ::ₘ M2 := by
          rw [hM2a]
          show ((([y] : List HNode)) : Multiset HNode) + M2 = _
          rw [Multiset.coe_singleton, Multiset.singleton_add]
        exact (Multiset.cons_inj_right y).mp (e1.symm.trans e2)
      have e3 : (shBlocks (shSet (shSet s p (.lf y)) q (.lf x)) : Multiset HNode)
          = x ::ₘ M2 := by
        rw [hM2b]
        show ((([x] : List HNode)) : Multiset HNode) + M2 = _
        rw [Multiset.coe_singleton, Multiset.singleton_add]
      have e4 : (shBlocks s : Multiset HNode) = x ::ₘ M1 := by
        rw [hM1a]
        show ((([x] : List HNode)) : Multiset HNode) + M1 = _
        rw [Multiset.coe_singleton, Multiset.singleton_add]
      rw [e3, e4, hMeq]
    · have hA := shCost_set hp (.lf y)
      have hq1 : shSub (shSet s p (.lf y)) q = some (.lf y) :=
        shSet_other hp hq hpq
      have hB := shCost_set hq1 (.lf x)
      simp only [shCost, shW] at hA hB
      linarith
    · have h1 := shH_set_leaf (y := y) hp
      have hq1 : shSub (shSet s p (.lf y)) q = some (.lf y) :=
        shSet_other hp hq hpq
      have h2 := shH_set_leaf (y := x) hq1
      rw [h2, h1]

theorem sh_exchange (s : Sh) (t1 t2 : HNode) (G : Multiset HNode)
    (hbl : (shBlocks s : Multiset HNode) = t1 ::ₘ t2 ::ₘ G)
    (h1 : ∀ x ∈ shBlocks s, wsum t1 ≤ wsum x)
    (h2 : ∀ x ∈ G, wsum t2 ≤ wsum x) :
    ∃ s3 : Sh,
      (shBlocks s3 : Multiset HNode)
        = HNode.mk (t1.freq + t2.freq) none (some t1) (some t2) ::ₘ G ∧
      shCost s3 ≤ shCost s := by
  have hH : 1 ≤ shH s := by
    cases s with
    | lf t =>
      exfalso
      have hcard := congrArg Multiset.card hbl
      simp [shBlocks] at hcard
    | nd l r => simp [shH]
  obtain ⟨pp, a0, b0, hpp, hppl⟩ := exists_deepest_pair hH
  have hpL : shSub s (pp ++ [false]) = some (.lf a0) := by
    rw [shSub_append, hpp]
    rfl
  have hpR : shSub s (pp ++ [true]) = some (.lf b0) := by
    rw [shSub_append, hpp]
    rfl
  have hLR : pp ++ [false] ≠ pp ++ [true] := by simp
  have hlenL : (pp ++ [false]).length = shH s := by
    simp only [List.length_append, List.length_cons, List.length_nil]
    omega
  have hlenR : (pp ++ [true]).length = shH s := by
    simp only [List.length_append, List.length_cons, List.length_nil]
    omega
  obtain ⟨q1, q2, hq12, hq1, hq2⟩ := exists_two_paths hbl
  -- step 1: put t1 at the deep left position
  obtain ⟨s1, hs1_q1, hs1_pL, hs1_other, hs1_bl, hs1_cost, hs1_H⟩ :=
    sh_swap_aux s q1 (pp ++ [false]) t1 a0 hq1 hpL
  have hs1_le : shCost s1 ≤ shCost s := by
    have hq1len : (q1.length : Int) ≤ ((pp ++ [false]).length : Int) := by
      have := path_len_le_height hq1
      rw [hlenL]
      exact_mod_cast this
    have ha0mem : a0 ∈ shBlocks s := by
      obtain ⟨M, hM⟩ := single_block hpL
      exact Multiset.mem_coe.mp (by rw [hM]; exact Multiset.mem_cons_self _ _)
    have hw : wsum t1 ≤ wsum a0 := h1 a0 ha0mem
    nlinarith [mul_nonneg (sub_nonneg.mpr hq1len) (sub_nonneg.mpr hw)]
  -- t2 sits at some path other than the deep left position
  obtain ⟨q2', hq2', hq2'ne⟩ :
      ∃ q2', shSub s1 q2' = some (.lf t2) ∧ q2' ≠ pp ++ [false] := by
    by_cases hcase : q2 = pp ++ [false]
    · have hne : q1 ≠ pp ++ [false] := by
        rw [← hcase]
        exact fun h => hq12 h
      obtain rfl : a0 = t2 := by
        rw [hcase] at hq2
        rw [hq2] at hpL
        cases Option.some.inj hpL
        rfl
      exact ⟨q1, hs1_q1, hne⟩
    · exact ⟨q2, hs1_other q2 t2 hq2 (fun h => hq12 h.symm) hcase, hcase⟩
  -- the occupant of the deep right position
  obtain ⟨x2, hx2⟩ : ∃ x2, shSub s1 (pp ++ [true]) = some (.lf x2) := by
    by_cases hcase : pp ++ [true] = q1
    · exact ⟨a0, by rw [hcase]; exact hs1_q1⟩
    · exact ⟨b0, hs1_other _ b0 hpR (fun h => hcase h)
        (fun h => hLR h.symm)⟩
  have hx2w : wsum t2 ≤ wsum x2 := by
    obtain ⟨M, hM⟩ := pair_blocks hs1_pL hx2 hLR
    have : x2 ::ₘ M = t2 ::ₘ G := by
      have := hM.symm.trans (hs1_bl.trans hbl)
      exact (Multiset.cons_inj_right t1).mp this
    have hx2mem : x2 ∈ t2 ::ₘ G := by
      rw [← this]
      exact Multiset.mem_cons_self _ _
    rcases Multiset.mem_cons.mp hx2mem with rfl | hmem
    · exact le_refl _
    · exact h2 x2 hmem
  -- step 2: put t2 at the deep right position
  obtain ⟨s2, hs2_q2, hs2_pR, hs2_other, hs2_bl, hs2_cost, hs2_H⟩ :=
    sh_swap_aux s1 q2' (pp ++ [true]) t2 x2 hq2' hx2
  have hs2_le : shCost s2 ≤ shCost s1 := by
    have hq2len : (q2'.length : Int) ≤ ((pp ++ [true]).length : Int) := by
      have := path_len_le_height hq2'
      rw [hlenR, ← hs1_H]
      exact_mod_cast this
    nlinarith [mul_nonneg (sub_nonneg.mpr hq2len) (sub_nonneg.mpr hx2w)]
  have hs2_pL : shSub s2 (pp ++ [false]) = some (.lf t1) :=
    hs2_other _ t1 hs1_pL (fun h => hq2'ne h.symm) hLR
  -- the deepest pair now holds exactly t1 and t2
  have hsub_pp : shSub s2 pp = some (.nd (.lf t1) (.lf t2)) := by
    have hL := hs2_pL
    have hR := hs2_pR
    rw [shSub_append] at hL hR
    rcases hu : shSub s2 pp with _ | u
    · rw [hu] at hL
      exact Option.noConfusion hL
    · rw [hu] at hL hR
      cases u with
      | lf t =>
        simp [shSub] at hL
      | nd l2 r2 =>
        obtain rfl : l2 = Sh.lf t1 := by simpa [shSub] using hL
        obtain rfl : r2 = Sh.lf t2 := by simpa [shSub] using hR
        rfl
  -- merge the pair into a single block
  obtain ⟨M3, hM3a, hM3b⟩ := shBlocks_set hsub_pp
  have hM3G : M3 = G := by
    have e1 : (shBlocks s2 : Multiset HNode) = t1 ::ₘ t2 ::ₘ M3 := by
      rw [hM3a]
      show (((([t1, t2]) : List HNode)) : Multiset HNode) + M3 = _
      rw [show (((([t1, t2]) : List HNode)) : Multiset HNode)
        = t1 ::ₘ t2 ::ₘ 0 from rfl, Multiset.cons_add, Multiset.cons_add,
        zero_add]
    have e2 := e1.symm.trans ((hs2_bl.trans hs1_bl).trans hbl)
    exact (Multiset.cons_inj_right t2).mp ((Multiset.cons_inj_right t1).mp e2)
  refine ⟨shSet s2 pp
    (.lf (HNode.mk (t1.freq + t2.freq) none (some t1) (some t2))), ?_, ?_⟩
  · rw [hM3b, hM3G]
    show ((([HNode.mk (t1.freq + t2.freq) none (some t1) (some t2)] : List HNode))
      : Multiset HNode) + G = _
    rw [Multiset.coe_singleton, Multiset.singleton_add]
  · have hcs := shCost_set hsub_pp
      (.lf (HNode.mk (t1.freq + t2.freq) none (some t1) (some t2)))
    have hcu : shCost (Sh.nd (Sh.lf t1) (Sh.lf t2))
        = cost t1 + cost t2 + wsum t1 + wsum t2 := by
      simp [shCost, shW]
    have hcm : shCost (Sh.lf (HNode.mk (t1.freq + t2.freq) none (some t1) (some t2)))
        = cost t1 + wsum t1 + (cost t2 + wsum t2) := rfl
    have hwu : shW (Sh.nd (Sh.lf t1) (Sh.lf t2)) = wsum t1 + wsum t2 := rfl
    have hwm : shW (Sh.lf (HNode.mk (t1.freq + t2.freq) none (some t1) (some t2)))
        = wsum t1 + wsum t2 := rfl
    rw [hcu, hcm, hwu, hwm] at hcs
    linarith

/-! ### Optimality of the merge loop -/

theorem step_min {nodes : List HNode} {a b : HNode} {rest : List HNode}
    (hrev : (sortNodes nodes).reverse = a :: b :: rest) :
    List.Perm nodes (a :: b :: rest) ∧
    (∀ x ∈ nodes, a.freq ≤ x.freq) ∧ a.freq ≤ b.freq ∧
    (∀ x ∈ rest, b.freq ≤ x.freq) := by
  have hperm : List.Perm nodes (a :: b :: rest) :=
    List.Perm.trans (sortNodes_perm nodes).symm
      (hrev ▸ (List.reverse_perm (sortNodes nodes)).symm)
  have hpw : (a :: b :: rest).Pairwise (fun x y => x.freq ≤ y.freq) := by
    have hs := sortNodes_sorted nodes
    have hrevpw : ((sortNodes nodes).reverse).Pairwise
        (fun x y => nodeGE y x) := List.pairwise_reverse.mpr hs
    rw [hrev] at hrevpw
    exact hrevpw.imp (fun h => h)
  refine ⟨hperm, ?_, (List.pairwise_cons.mp hpw).1 b (by simp), ?_⟩
  · intro x hx
    have hx' : x ∈ a :: b :: rest := hperm.mem_iff.mp hx
    rcases List.mem_cons.mp hx' with rfl | hx''
    · exact le_refl _
    · exact (List.pairwise_cons.mp hpw).1 x hx''
  · intro x hx
    exact (List.pairwise_cons.mp (List.pairwise_cons.mp hpw).2).1 x hx

theorem huffLoop_optimal (L : List HNode) (hne : L ≠ [])
    (hfc : ∀ x ∈ L, x.freq = wsum x) (t : HNode) (ht : huffLoop L = [t])
    (s : Sh) (hbl : (shBlocks s : Multiset HNode) = (L : Multiset HNode)) :
    cost t ≤ shCost s := by
  by_cases h1 : 1 < L.length
  · obtain ⟨a, b, rest, hrev⟩ := exists_rev_two h1
    obtain ⟨hperm, hamin, hab, hbmin⟩ := step_min hrev
    have hfc' : ∀ x ∈ a :: b :: rest, x.freq = wsum x := fun x hx =>
      hfc x (hperm.mem_iff.mpr hx)
    have hbl' : (shBlocks s : Multiset HNode)
        = a ::ₘ b ::ₘ (rest : Multiset HNode) := by
      rw [hbl, Multiset.coe_eq_coe.mpr hperm]
      rfl
    have h1' : ∀ x ∈ shBlocks s, wsum a ≤ wsum x := by
      intro x hx
      have hxL : x ∈ L := by
        have hxm : x ∈ (L : Multiset HNode) := by
          rw [← hbl]
          exact Multiset.mem_coe.mpr hx
        exact Multiset.mem_coe.mp hxm
      calc wsum a = a.freq := (hfc' a (by simp)).symm
        _ ≤ x.freq := hamin x hxL
        _ = wsum x := hfc x hxL
    have h2' : ∀ x ∈ (rest : Multiset HNode), wsum b ≤ wsum x := by
      intro x hx
      have hxr : x ∈ rest := Multiset.mem_coe.mp hx
      calc wsum b = b.freq := (hfc' b (by simp)).symm
        _ ≤ x.freq := hbmin x hxr
        _ = wsum x := hfc x (hperm.mem_iff.mpr (by simp [hxr]))
    obtain ⟨s3, hs3bl, hs3cost⟩ := sh_exchange s a b _ hbl' h1' h2'
    have hstep := huffLoop_step h1 hrev
    have hnext_ne :
        rest.reverse ++ [HNode.mk (a.freq + b.freq) none (some a) (some b)]
          ≠ [] := by simp
    have hnext_fc : ∀ x ∈ rest.reverse ++
        [HNode.mk (a.freq + b.freq) none (some a) (some b)],
        x.freq = wsum x := by
      intro x hx
      rcases List.mem_append.mp hx with hm | hm
      · exact hfc' x (by simp [List.mem_reverse.mp hm])
      · obtain rfl : x = HNode.mk (a.freq + b.freq) none (some a) (some b) := by
          simpa using hm
        show a.freq + b.freq = wsum a + wsum b
        rw [hfc' a (by simp), hfc' b (by simp)]
    have hnext_ht : huffLoop (rest.reverse ++
        [HNode.mk (a.freq + b.freq) none (some a) (some b)]) = [t] := by
      rw [← hstep]
      exact ht
    have hnext_bl : (shBlocks s3 : Multiset HNode)
        = ((rest.reverse ++ [HNode.mk (a.freq + b.freq) none (some a) (some b)] :
            List HNode) : Multiset HNode) := by
      rw [hs3bl]
      have hp : List.Perm
          (rest.reverse ++ [HNode.mk (a.freq + b.freq) none (some a) (some b)])
          (HNode.mk (a.freq + b.freq) none (some a) (some b) :: rest) :=
        List.Perm.trans
          (List.Perm.append_right _ (List.reverse_perm rest))
          (List.perm_append_singleton _ _)
      rw [Multiset.coe_eq_coe.mpr hp]
      rfl
    exact le_trans
      (huffLoop_optimal _ hnext_ne hnext_fc t hnext_ht s3 hnext_bl) hs3cost
  · obtain ⟨x, rfl⟩ : ∃ x, L = [x] := by
      rcases L with _ | ⟨x, _ | ⟨y, L'⟩⟩
      · exact absurd rfl hne
      · exact ⟨x, rfl⟩
      · exact absurd (by simp) h1
    rw [huffLoop_small h1] at ht
    obtain rfl : x = t := by simpa using ht
    obtain rfl : s = Sh.lf x := by
      cases s with
      | lf u =>
        have hu : u = x := by simpa [shBlocks] using hbl
        rw [hu]
      | nd l r =>
        exfalso
        have hc := congrArg Multiset.card hbl
        have hlpos := List.length_pos.mpr (shBlocks_ne_nil l)
        have hrpos := List.length_pos.mpr (shBlocks_ne_nil r)
        simp [shBlocks] at hc
        omega
    exact le_of_eq rfl
termination_by L.length
decreasing_by
  have hlen := rev_sort_len hrev
  simp
  omega

/-! ### From shapes back to trees -/

theorem wpl_eq_cost {t : HNode} (h : WFT t) :
    ∀ d : Nat, wpl t d = cost t + d * wsum t := by
  induction h with
  | leaf f c =>
    intro d
    simp [wpl, cost, wsum]
    ring
  | node f hl hr ihl ihr =>
    intro d
    simp only [wpl, cost, wsum]
    rw [ihl, ihr]
    push_cast
    ring

theorem shW_shapeOf {t : HNode} (h : WFT t) : shW (shapeOf t) = wsum t := by
  induction h with
  | leaf f c => rfl
  | node f hl hr ihl ihr =>
    show shW (Sh.nd _ _) = _
    simp only [shW, ihl, ihr]
    rfl

theorem shCost_shapeOf {t : HNode} (h : WFT t) : shCost (shapeOf t) = cost t := by
  induction h with
  | leaf f c => rfl
  | node f hl hr ihl ihr =>
    show shCost (Sh.nd _ _) = _
    simp only [shCost, ihl, ihr, shW_shapeOf hl, shW_shapeOf hr]
    show _ = (cost _ + wsum _) + (cost _ + wsum _)
    ring

theorem shBlocks_shapeOf {t : HNode} (h : WFT t) :
    shBlocks (shapeOf t) = (leafData t).map leafOf := by
  induction h with
  | leaf f c => rfl
  | node f hl hr ihl ihr =>
    show shBlocks (Sh.nd _ _) = _
    simp only [shBlocks, ihl, ihr, leafData, List.map_append]

theorem huffLoop_dataMS (nodes : List HNode) :
    ((huffLoop nodes).map
      (fun t => (leafData t : Multiset (Char × Int)))).sum
    = (nodes.map (fun t => (leafData t : Multiset (Char × Int)))).sum := by
  refine huffLoop_pres
    (fun L => (L.map (fun t => (leafData t : Multiset (Char × Int)))).sum
      = (nodes.map (fun t => (leafData t : Multiset (Char × Int)))).sum)
    ?_ ?_ nodes rfl
  · intro L1 L2 hp hP
    rw [← hP]
    exact ((hp.map _).sum_eq).symm
  · intro a b rest hP
    rw [← hP]
    simp only [List.map_cons, List.sum_cons]
    have hmerge : (leafData (HNode.mk (a.freq + b.freq) none (some a) (some b))
        : Multiset (Char × Int))
        = (leafData a : Multiset (Char × Int)) + (leafData b) := by
      show ((leafData a ++ leafData b : List (Char × Int))
        : Multiset (Char × Int)) = _
      exact coe_append_ms _ _
    rw [hmerge]
    exact add_assoc ((leafData a : Multiset (Char × Int)))
      ((leafData b : Multiset (Char × Int))) _

theorem treeFromMap_loop {fm : List (Char × Int)} {t : HNode}
    (h : treeFromMap fm = some t) : huffLoop (fm.map leafOf) = [t] := by
  have hne : fm.map leafOf ≠ [] := by
    intro hnil
    rw [treeFromMap, hnil] at h
    rw [show (huffLoop ([] : List HNode)).getLast? = none from rfl] at h
    exact Option.noConfusion h
  obtain ⟨u, hu⟩ := huffLoop_sing _ hne
  rw [treeFromMap, hu] at h
  obtain rfl : u = t := by simpa using h
  exact hu

theorem treeFromMap_data {fm : List (Char × Int)} {t : HNode}
    (h : treeFromMap fm = some t) :
    (leafData t : Multiset (Char × Int)) = (fm : Multiset (Char × Int)) := by
  have h1 := huffLoop_dataMS (fm.map leafOf)
  rw [treeFromMap_loop h] at h1
  simp only [List.map_cons, List.map_nil, List.sum_cons, List.sum_nil,
    add_zero] at h1
  rw [h1]
  clear h1 h
  induction fm with
  | nil => rfl
  | cons kv rest ih =>
    simp only [List.map_cons, List.sum_cons, ih]
    show ((([kv] : List (Char × Int))) : Multiset (Char × Int)) + _ = _
    rw [Multiset.coe_singleton, Multiset.singleton_add]
    rfl

theorem treeFromMap_wft {fm : List (Char × Int)} {t : HNode}
    (h : treeFromMap fm = some t) : WFT t := by
  have h1 := huffLoop_wft (fm.map leafOf) (by
    intro x hx
    obtain ⟨kv, _, rfl⟩ := List.mem_map.mp hx
    exact WFT.leaf _ _)
  rw [treeFromMap_loop h] at h1
  exact h1 t (by simp)

/-- Claim C7: for every non-empty frequency map, the tree built by the merge
loop has leaf distribution exactly the map's entries, and minimises the
weighted path length (sum over leaves of weight × depth) among all binary
prefix-code trees (`WFT`) with that leaf distribution. -/
theorem C7_tree_builder_optimal (fm : List (Char × Int)) (hne : fm ≠ [])
    (t : HNode) (ht : treeFromMap fm = some t) :
    (leafData t : Multiset (Char × Int)) = (fm : Multiset (Char × Int)) ∧
    ∀ t' : HNode, WFT t' →
      (leafData t' : Multiset (Char × Int)) = (fm : Multiset (Char × Int)) →
      wpl t 0 ≤ wpl t' 0 := by
  refine ⟨treeFromMap_data ht, ?_⟩
  intro t' hwft' hdata'
  have hWt : WFT t := treeFromMap_wft ht
  rw [wpl_eq_cost hWt 0, wpl_eq_cost hwft' 0]
  simp only [Nat.cast_zero, zero_mul, add_zero]
  have hLne : fm.map leafOf ≠ [] := by simpa using hne
  have hfc : ∀ x ∈ fm.map leafOf, x.freq = wsum x := by
    intro x hx
    obtain ⟨kv, _, rfl⟩ := List.mem_map.mp hx
    rfl
  have hloop : huffLoop (fm.map leafOf) = [t] := treeFromMap_loop ht
  have hblocks : (shBlocks (shapeOf t') : Multiset HNode)
      = ((fm.map leafOf : List HNode) : Multiset HNode) := by
    rw [shBlocks_shapeOf hwft']
    rw [← Multiset.map_coe, ← Multiset.map_coe, hdata']
  have hopt := huffLoop_optimal (fm.map leafOf) hLne hfc t hloop
    (shapeOf t') hblocks
  rwa [shCost_shapeOf hwft'] at hopt

/-- Witness for C7 on the frequency map of `"ab"`: the built tree is itself a
tree over that distribution, so its weighted path length is a lower bound. -/
theorem C7_tree_builder_optimal_witness :
    (leafData (HNode.mk 2 none (some (HNode.mk 1 (some 'b') none none))
        (some (HNode.mk 1 (some 'a') none none)))
      : Multiset (Char × Int))
      = (([('a', 1), ('b', 1)] : List (Char × Int)) : Multiset (Char × Int)) ∧
    ∀ t' : HNode, WFT t' →
      (leafData t' : Multiset (Char × Int))
        = (([('a', 1), ('b', 1)] : List (Char × Int)) : Multiset (Char × Int)) →
      wpl (HNode.mk 2 none (some (HNode.mk 1 (some 'b') none none))
        (some (HNode.mk 1 (some 'a') none none))) 0 ≤ wpl t' 0 :=
  C7_tree_builder_optimal [('a', 1), ('b', 1)] (by simp) _ rfl

/-- `generate_tree` is the tree builder applied to the input's frequency map:
the claim about frequency maps covers exactly the code path of the source. -/
theorem generate_tree_eq_treeFromMap (s : Str) :
    generate_tree s = treeFromMap (freq_map s) := rfl
